import Mathlib

/-!
# Employment verification module: normalization and reconciliation engine

A shallow embedding of the repository's core (the files
`normalize/common.py`, `normalize/validators.py`, `normalize/paystub_fields.py`,
`normalize/ev_fields.py`, `merge/rules.py`, `merge/merge_engine.py`),
together with proofs checking the design specification's claims against it.

Modelling conventions:
* Python values flowing through a raw/canonical field are `None`, strings or
  numbers; they are embedded as `PyVal` (numbers as exact rationals).
* A `{value, confidence}` dict is a `FieldValue`; a raw or normalized field
  set (a dict keyed by field-name strings) is a function
  `String → Option FieldValue`; the unified record (an insertion-ordered
  dict with a fixed key set) is an association list.
* Character classes (`str.split` whitespace, `str.isdigit`, upper/lower
  casing, the regex classes `\d` and `\s`) are modelled over ASCII, which is
  the alphabet every value in this pipeline and every claim uses; Python
  additionally handles non-ASCII Unicode in those classes.
* Python `str()` of a number is rendered by `pyNumStr`.  It produces the
  exact decimal form for decimal-representable rationals; no theorem below
  depends on the precise text of a number embedded in a string.
-/

namespace EmploymentVerification

/-- A Python value held in a `{value, confidence}` record: `None`, a string,
or a number (int/float, embedded as an exact rational). -/
inductive PyVal where
  | none : PyVal
  | str : String → PyVal
  | num : Rat → PyVal
deriving DecidableEq, Repr

/-- A `{value, confidence}` dict (`RawFieldValue` / `CanonicalFieldValue` of
the spec).  The confidence is a number or `None`. -/
structure FieldValue where
  value : PyVal
  confidence : Option Rat
deriving DecidableEq, Repr

/-- Python truthiness test (`if not s`) for the values that occur in a field:
`None`, the empty string and the number `0` are falsy. -/
def pyFalsy : PyVal → Bool
  | PyVal.none => true
  | PyVal.str s => s = ""
  | PyVal.num q => q = 0

/-- The whitespace characters recognized by Python's `str.split()`,
`str.lstrip()` and the regex class `\s` (ASCII part). -/
def pyIsSpace (c : Char) : Bool :=
  c = ' ' || c = '\t' || c = '\n' || c = '\r' || c = '\x0b' || c = '\x0c'

/-- ASCII decimal digit for `n < 10`. -/
def digitChar (n : Nat) : Char := Char.ofNat (48 + n)

/-- Numeric value of an ASCII digit character. -/
def charVal (c : Char) : Nat := c.toNat - 48

/-- Decimal digits of `n`, most significant first (fuel-driven so that the
definition is structurally recursive and kernel-reducible). -/
def natToCharsAux : Nat → Nat → List Char → List Char
  | 0, _, acc => acc
  | Nat.succ fuel, n, acc =>
    if n = 0 then acc else natToCharsAux fuel (n / 10) (digitChar (n % 10) :: acc)

/-- Decimal representation of a natural number. -/
def natToChars (n : Nat) : List Char :=
  if n = 0 then ['0'] else natToCharsAux (n + 1) n []

/-- Decimal representation padded with leading zeros to width `k`. -/
def natToCharsPad (n k : Nat) : List Char :=
  List.replicate (k - (natToChars n).length) '0' ++ natToChars n

/-- Least `k ≤ 40` with `den ∣ 10 ^ k`, if any. -/
def findDecExpAux (den : Nat) : Nat → Nat → Option Nat
  | 0, _ => Option.none
  | Nat.succ fuel, k =>
    if 10 ^ k % den = 0 then some k else findDecExpAux den fuel (k + 1)

/-- Least `k ≤ 40` with `den ∣ 10 ^ k`, if any. -/
def findDecExp (den : Nat) : Option Nat := findDecExpAux den 41 0

/-- Python `str()` of a number: exact decimal rendering when the denominator
divides a power of ten, else a fraction rendering.  (CPython renders floats
as their shortest round-tripping decimal; every number a claim touches is
decimal-representable, and no theorem depends on this rendering.) -/
def pyNumStr (q : Rat) : List Char :=
  let sign : List Char := if q < 0 then ['-'] else []
  let n := q.num.natAbs
  match findDecExp q.den with
  | some 0 => sign ++ natToChars n
  | some (Nat.succ k) =>
    let scaled := n * 10 ^ (k + 1) / q.den
    sign ++ natToChars (scaled / 10 ^ (k + 1)) ++ '.' ::
      natToCharsPad (scaled % 10 ^ (k + 1)) (k + 1)
  | Option.none => sign ++ natToChars n ++ '/' :: natToChars q.den

/-- Python `str()` of a field value (only reached for truthy values in the
code; `str(None)` is the string `"None"`). -/
def pyValStr : PyVal → List Char
  | PyVal.none => ['N', 'o', 'n', 'e']
  | PyVal.str s => s.toList
  | PyVal.num q => pyNumStr q

/-- Python `str.split()` with no argument: the list of maximal runs of
non-whitespace characters. -/
def pyWords : List Char → List (List Char)
  | [] => []
  | c :: cs =>
    if pyIsSpace c then pyWords cs
    else
      match cs, pyWords cs with
      | [], _ => [[c]]
      | c2 :: _, ws =>
        if pyIsSpace c2 then [c] :: ws
        else
          match ws with
          | w :: rest => (c :: w) :: rest
          | [] => [[c]]

/-- `" ".join(str(s).split())`: collapse whitespace runs to single spaces and
trim. -/
def pySquash (cs : List Char) : List Char :=
  List.intercalate [' '] (pyWords cs)

/-- `squash_spaces` from `normalize/common.py`: collapse extra
spaces/newlines and trim; `None` if empty (the leading `if not s` also maps
the empty string and the number `0` to `None`). -/
def squash_spaces (v : PyVal) : Option String :=
  if pyFalsy v then Option.none
  else
    let out := pySquash (pyValStr v)
    if out = [] then Option.none else some (String.mk out)

/-- Python `s.replace(a ++ b, k)` for a two-character pattern and a
one-character replacement: global, non-overlapping, left-to-right, and the
replacement text is not rescanned. -/
def repl2 (a b k : Char) : List Char → List Char
  | [] => []
  | [c] => [c]
  | c :: c2 :: rest =>
    if c = a ∧ c2 = b then k :: repl2 a b k rest
    else c :: repl2 a b k (c2 :: rest)

/-- The five `str.replace` calls of `clean_money`, in source order:
`", "→","`, `" ."→"."`, `". "→"."`, `" ,"→","`, `"$ "→"$"`. -/
def moneyRepl (cs : List Char) : List Char :=
  repl2 '$' ' ' '$'
    (repl2 ' ' ',' ','
      (repl2 '.' ' ' '.'
        (repl2 ' ' '.' '.'
          (repl2 ',' ' ' ',' cs))))

/-- `clean_money` from `normalize/common.py`: squash spaces (keeping the
original value when the squash comes out empty, via `or s`), then rejoin
OCR-split separators.  On a non-string truthy value whose squash is empty
Python would raise in `str.replace`; that branch is unreachable because
`str()` of a number is never whitespace-only, and is mapped to `None`. -/
def clean_money (v : PyVal) : Option String :=
  if pyFalsy v then Option.none
  else
    match squash_spaces v with
    | some t => some (String.mk (moneyRepl t.toList))
    | Option.none =>
      match v with
      | PyVal.str s => some (String.mk (moneyRepl s.toList))
      | _ => Option.none

/-- The character class kept by `_MONEY_RX = [^\d.,-]` substitution: digits,
period, comma, minus. -/
def isMoneyChar (c : Char) : Bool :=
  c.isDigit || c = '.' || c = ',' || c = '-'

/-- Digits of a character list (`"".join(ch for ch in s if ch.isdigit())`). -/
def filterDigits (cs : List Char) : List Char := cs.filter Char.isDigit

/-- Consume a maximal run of decimal digits from the front. -/
def spanDigits : List Char → List Char × List Char
  | [] => ([], [])
  | c :: cs =>
    if c.isDigit then
      let p := spanDigits cs
      (c :: p.1, p.2)
    else ([], c :: cs)

/-- Numeric value of a digit run, most significant first. -/
def digitsVal (cs : List Char) : Nat :=
  cs.foldl (fun acc c => 10 * acc + charVal c) 0

/-- Fractional value of a digit run read after a decimal point. -/
def fracVal (cs : List Char) : Rat :=
  (digitsVal cs : Rat) / (10 ^ cs.length : Nat)

/-- Parse the exponent part `("e"|"E") [sign] digits` of a float literal
(the whole rest of the string must be consumed); `some 0` when there is no
rest. -/
def parseExp (cs : List Char) : Option Int :=
  match cs with
  | [] => some 0
  | e :: cs2 =>
    if e = 'e' || e = 'E' then
      let signed :=
        match cs2 with
        | '-' :: cs3 => (true, cs3)
        | '+' :: cs3 => (false, cs3)
        | _ => (false, cs2)
      let p := spanDigits signed.2
      if p.1 = [] || p.2 ≠ [] then Option.none
      else if signed.1 then some (-(digitsVal p.1 : Int)) else some (digitsVal p.1 : Int)
    else Option.none

/-- Python `float(s)` on an already-stripped string: optional sign, then
`digits [. digits] | . digits`, then an optional exponent.  (Python also
accepts `inf`/`nan` and underscore digit separators; those never reach this
code and are not modelled.) -/
def pyFloat (cs : List Char) : Option Rat :=
  let signed :=
    match cs with
    | '-' :: cs2 => (true, cs2)
    | '+' :: cs2 => (false, cs2)
    | _ => (false, cs)
  let ip := spanDigits signed.2
  let afterInt :=
    match ip.2 with
    | '.' :: cs3 =>
      let fp := spanDigits cs3
      if ip.1 = [] && fp.1 = [] then Option.none
      else some ((digitsVal ip.1 : Rat) + fracVal fp.1, fp.2)
    | rest =>
      if ip.1 = [] then Option.none else some ((digitsVal ip.1 : Rat), rest)
  match afterInt with
  | Option.none => Option.none
  | some (m, rest) =>
    match parseExp rest with
    | Option.none => Option.none
    | some e => some (if signed.1 then -m * 10 ^ e else m * 10 ^ e)

/-- `money_to_float` from `normalize/common.py`: strip every character
outside `[\d.,-]`, fail if nothing remains, then `float` after removing
commas. -/
def money_to_float (s : Option String) : Option Rat :=
  match s with
  | Option.none => Option.none
  | some s =>
    if s = "" then Option.none
    else
      let digits := s.toList.filter isMoneyChar
      if digits = [] then Option.none
      else pyFloat (digits.filter (fun c => c ≠ ','))

/-- Leftmost match of the regex `-?\d+(\.\d+)?` in a string, as the matched
token (the `re.search` fallback in `to_float`). -/
def findNumToken : List Char → Option (List Char)
  | [] => Option.none
  | c :: cs =>
    let atHere : Option (List Char) :=
      let body := if c = '-' then cs else c :: cs
      let sign : List Char := if c = '-' then ['-'] else []
      let ip := spanDigits body
      if ip.1 = [] then Option.none
      else
        match ip.2 with
        | '.' :: cs3 =>
          let fp := spanDigits cs3
          if fp.1 = [] then some (sign ++ ip.1)
          else some (sign ++ ip.1 ++ '.' :: fp.1)
        | _ => some (sign ++ ip.1)
    match atHere with
    | some tok => some tok
    | Option.none => findNumToken cs

/-- `to_float` from `normalize/common.py`: numbers pass through `float`
unchanged; strings are squashed and parsed, falling back to the first
embedded signed decimal literal. -/
def to_float (v : PyVal) : Option Rat :=
  match v with
  | PyVal.none => Option.none
  | PyVal.num q => some q
  | PyVal.str s =>
    match squash_spaces (PyVal.str s) with
    | Option.none => Option.none
    | some t =>
      match pyFloat t.toList with
      | some q => some q
      | Option.none =>
        match findNumToken t.toList with
        | some tok => pyFloat tok
        | Option.none => Option.none

/-- Python `str.lower` (ASCII). -/
def lowerChars (cs : List Char) : List Char := cs.map Char.toLower

/-- `strip_prefix`'s scan over the candidate prefixes: the first `p` with
`txt.lower().startswith(p.lower())` is removed (`txt[len(p):].lstrip()`);
if none matches the left-stripped input is returned. -/
def stripPrefixLoop (txt : List Char) : List String → List Char
  | [] => txt
  | p :: ps =>
    if (lowerChars p.toList).isPrefixOf (lowerChars txt) then
      (txt.drop p.length).dropWhile pyIsSpace
    else stripPrefixLoop txt ps

/-- `strip_prefix` from `normalize/common.py`, on string-or-`None` input
(a truthy non-string input would raise `AttributeError` at `s.lstrip()`;
see `strip_prefix_raises`).  Note the code left-strips the input before
trying any prefix. -/
def strip_prefix (s : Option String) (prefixes : List String) : Option String :=
  match s with
  | Option.none => Option.none
  | some s =>
    if s = "" then Option.none
    else some (String.mk (stripPrefixLoop (s.toList.dropWhile pyIsSpace) prefixes))

/-- The condition under which Python's `strip_prefix(s, ...)` raises
`AttributeError`: its argument is truthy but not a string, so `s.lstrip()`
does not exist (numbers are the only such values in a field). -/
def strip_prefix_raises : PyVal → Bool
  | PyVal.num q => q ≠ 0
  | _ => false

/-- Python `str.isupper` (ASCII): at least one cased character and no cased
character in lowercase. -/
def pyIsUpper (cs : List Char) : Bool :=
  cs.any Char.isAlpha && cs.all (fun c => !c.isAlpha || c.isUpper)

/-- Python `str.capitalize` (ASCII): first character uppercased, the rest
lowercased. -/
def pyCapitalize : List Char → List Char
  | [] => []
  | c :: cs => c.toUpper :: cs.map Char.toLower

/-- One word of `titlecase_job`: an all-caps word of at most 4 characters is
preserved, every other word is capitalized. -/
def titleWord (w : List Char) : List Char :=
  if pyIsUpper w && w.length ≤ 4 then w else pyCapitalize w

/-- `titlecase_job` from `normalize/common.py`.  When the squash comes out
empty (`or s` keeps the original value) a whitespace-only string splits to
no words and yields the empty string; a non-string truthy value would raise
at `s.split()`, but `str()` of a number is never whitespace-only, so that
branch is unreachable and mapped to `None`. -/
def titlecase_job (v : PyVal) : Option String :=
  if pyFalsy v then Option.none
  else
    match squash_spaces v with
    | some t =>
      some (String.mk (List.intercalate [' '] ((pyWords t.toList).map titleWord)))
    | Option.none =>
      match v with
      | PyVal.str _ => some ""
      | _ => Option.none

/-- `is_valid_ein` from `normalize/validators.py`: `re.match(r"^\d{6}$", v)`
on a truthy value.  The regex anchor `$` also matches just before a single
trailing newline, hence the second disjunct (unreachable from the callers,
which pass pure digit strings). -/
def is_valid_ein (value : Option String) : Bool :=
  match value with
  | Option.none => false
  | some v =>
    if v = "" then false
    else
      (v.toList.length == 6 && v.toList.all Char.isDigit) ||
        (v.toList.length == 7 && (v.toList.take 6).all Char.isDigit &&
          v.toList.getLast? == some '\n')

/-! ## Date parsing (`parse_date` and the `datetime` calendar it relies on) -/

/-- Split on a separator character, keeping empty parts (used to model the
full-string regex match `strptime` builds for a fixed layout: the layout's
literal separator cannot occur inside a field token). -/
def splitChar (sep : Char) : List Char → List (List Char)
  | [] => [[]]
  | c :: cs =>
    if c = sep then [] :: splitChar sep cs
    else
      match splitChar sep cs with
      | w :: ws => (c :: w) :: ws
      | [] => [[c]]

/-- Exactly three separator-delimited parts, as a triple. -/
def strpSplit3 (sep : Char) (cs : List Char) : Option (List Char × List Char × List Char) :=
  match splitChar sep cs with
  | [a, b, c] => some (a, b, c)
  | _ => Option.none

/-- The token accepted by `strptime`'s `%m`/`%d` regexes
(`1[0-2]|0[1-9]|[1-9]` resp. `3[01]|[12]\d|0[1-9]|[1-9]`): one or two
digits whose value lies in `1..hi`. -/
def numToken (hi : Nat) (cs : List Char) : Option Nat :=
  if (cs.length = 1 ∨ cs.length = 2) ∧ cs.all Char.isDigit = true then
    if 1 ≤ digitsVal cs ∧ digitsVal cs ≤ hi then some (digitsVal cs) else Option.none
  else Option.none

/-- The `%Y` token: exactly four digits. -/
def year4Token (cs : List Char) : Option Nat :=
  if cs.length = 4 ∧ cs.all Char.isDigit = true then some (digitsVal cs) else Option.none

/-- The `%y` token: exactly two digits; `00..68` maps to `2000..2068` and
`69..99` to `1969..1999`. -/
def year2Token (cs : List Char) : Option Nat :=
  if cs.length = 2 ∧ cs.all Char.isDigit = true then
    some (if digitsVal cs ≤ 68 then 2000 + digitsVal cs else 1900 + digitsVal cs)
  else Option.none

/-- The `%b` token: a C-locale abbreviated month name, case-insensitively. -/
def monthNameToken (cs : List Char) : Option Nat :=
  let w := String.mk (lowerChars cs)
  if w = "jan" then some 1
  else if w = "feb" then some 2
  else if w = "mar" then some 3
  else if w = "apr" then some 4
  else if w = "may" then some 5
  else if w = "jun" then some 6
  else if w = "jul" then some 7
  else if w = "aug" then some 8
  else if w = "sep" then some 9
  else if w = "oct" then some 10
  else if w = "nov" then some 11
  else if w = "dec" then some 12
  else Option.none

/-- A `%m sep %d sep year` layout (`%m/%d/%Y`, `%m-%d-%Y`, `%m/%d/%y`,
`%m-%d-%y`). -/
def fmtMDY (sep : Char) (yearTok : List Char → Option Nat) (cs : List Char) :
    Option (Nat × Nat × Nat) :=
  match strpSplit3 sep cs with
  | some (a, b, c) =>
    match numToken 12 a, numToken 31 b, yearTok c with
    | some m, some d, some y => some (y, m, d)
    | _, _, _ => Option.none
  | Option.none => Option.none

/-- The `%Y-%m-%d` layout. -/
def fmtYMD (cs : List Char) : Option (Nat × Nat × Nat) :=
  match strpSplit3 '-' cs with
  | some (a, b, c) =>
    match year4Token a, numToken 12 b, numToken 31 c with
    | some y, some m, some d => some (y, m, d)
    | _, _, _ => Option.none
  | Option.none => Option.none

/-- A `%d sep %b sep %Y` layout (`%d-%b-%Y`, `%d %b %Y`; the input has been
squashed, so the format's whitespace — matched by `\s+` — is one space). -/
def fmtDBY (sep : Char) (cs : List Char) : Option (Nat × Nat × Nat) :=
  match strpSplit3 sep cs with
  | some (a, b, c) =>
    match numToken 31 a, monthNameToken b, year4Token c with
    | some d, some m, some y => some (y, m, d)
    | _, _, _ => Option.none
  | Option.none => Option.none

/-- Gregorian leap year. -/
def isLeap (y : Nat) : Bool := y % 4 = 0 && (y % 100 ≠ 0 || y % 400 = 0)

/-- Days in a month of the proleptic Gregorian calendar used by
`datetime`. -/
def daysInMonth (y m : Nat) : Nat :=
  if m = 2 then (if isLeap y then 29 else 28)
  else if m = 4 || m = 6 || m = 9 || m = 11 then 30
  else 31

/-- `datetime(year, month, day)` succeeds exactly on these triples
(`MINYEAR = 1`, `MAXYEAR = 9999`). -/
def validDate (y m d : Nat) : Bool :=
  decide (1 ≤ y ∧ y ≤ 9999 ∧ 1 ≤ m ∧ m ≤ 12 ∧ 1 ≤ d ∧ d ≤ daysInMonth y m)

/-- A zero-padded two-digit field (`%m`, `%d` of `strftime`). -/
def pad2 (n : Nat) : List Char := [digitChar (n / 10 % 10), digitChar (n % 10)]

/-- A zero-padded four-digit field (`%Y` of `strftime`; CPython's `%Y`
padding below year 1000 is platform-dependent, and the zero-padded form of
the documentation is used here). -/
def pad4 (n : Nat) : List Char :=
  [digitChar (n / 1000 % 10), digitChar (n / 100 % 10),
   digitChar (n / 10 % 10), digitChar (n % 10)]

/-- `dt.strftime("%Y-%m-%d")`: zero-padded canonical date string. -/
def fmtDate (y m d : Nat) : List Char :=
  pad4 y ++ '-' :: (pad2 m ++ '-' :: pad2 d)

/-- Construct-and-format: `datetime(year=y, month=m, day=d).strftime("%Y-%m-%d")`,
`None` when the constructor raises on an invalid calendar date. -/
def mkDateStr (y m d : Nat) : Option String :=
  if validDate y m d then some (String.mk (fmtDate y m d)) else Option.none

/-- The fixed layouts of `parse_date`, in source order:
`%m/%d/%Y, %m-%d-%Y, %Y-%m-%d, %m/%d/%y, %m-%d-%y, %d-%b-%Y, %d %b %Y`. -/
def strpFormats : List (List Char → Option (Nat × Nat × Nat)) :=
  [fmtMDY '/' year4Token, fmtMDY '-' year4Token, fmtYMD,
   fmtMDY '/' year2Token, fmtMDY '-' year2Token, fmtDBY '-', fmtDBY ' ']

/-- First fixed layout that both matches and yields a constructible date
(a `ValueError` from `datetime` falls through to the next layout). -/
def tryFormats : List (List Char → Option (Nat × Nat × Nat)) → List Char → Option String
  | [], _ => Option.none
  | f :: fs, cs =>
    match f cs with
    | some (y, m, d) =>
      match mkDateStr y m d with
      | some s => some s
      | Option.none => tryFormats fs cs
    | Option.none => tryFormats fs cs

/-- Maximal runs of decimal digits, in order. -/
def digitRunsRaw : List Char → List (List Char)
  | [] => []
  | c :: cs =>
    if c.isDigit then
      match cs, digitRunsRaw cs with
      | [], _ => [[c]]
      | c2 :: _, rs =>
        if c2.isDigit then
          match rs with
          | r :: rest => (c :: r) :: rest
          | [] => [[c]]
        else [c] :: rs
    else digitRunsRaw cs

/-- Greedy chunking of a digit run into pieces of at most four characters
(how `re.findall(r"\d{1,4}", txt)` cuts a longer run). -/
def chunk4 : List Char → List (List Char)
  | [] => []
  | a :: b :: c :: d :: e :: rest => [a, b, c, d] :: chunk4 (e :: rest)
  | run => [run]

/-- `re.findall(r"\d{1,4}", txt)`. -/
def digitChunks (cs : List Char) : List (List Char) :=
  ((digitRunsRaw cs).map chunk4).flatten

/-- `parse_date` from `normalize/common.py`: squash, reject short tokens,
try the fixed layouts, then the digit-run fallback interpreting the first
three runs as month, day, year (a non-4-digit year run gets 2000 added). -/
def parse_date (v : PyVal) : Option String :=
  if pyFalsy v then Option.none
  else if pySquash (pyValStr v) = [] ∨ (pySquash (pyValStr v)).length < 6 then Option.none
  else
    match tryFormats strpFormats (pySquash (pyValStr v)) with
    | some s => some s
    | Option.none =>
      match digitChunks (pySquash (pyValStr v)) with
      | r0 :: r1 :: r2 :: _ =>
        mkDateStr (if r2.length = 4 then digitsVal r2 else 2000 + digitsVal r2)
          (digitsVal r0) (digitsVal r1)
      | _ => Option.none

/-- Julian day number of a valid proleptic Gregorian date (standard formula,
in `Nat` arithmetic; used to embed `datetime` subtraction: the difference of
two Julian day numbers is the difference in days of the two dates). -/
def jdn (y m d : Nat) : Nat :=
  let a := (14 - m) / 12
  let yy := y + 4800 - a
  let mm := m + 12 * a - 3
  d + (153 * mm + 2) / 5 + 365 * yy + yy / 4 - yy / 100 + yy / 400 - 32045

/-! ## Per-source field normalizers
(`normalize/paystub_fields.py`, `normalize/ev_fields.py`) -/

/-- Lift the string-or-`None` result of a cleaning primitive back into a
field value. -/
def optToVal : Option String → PyVal
  | some s => PyVal.str s
  | Option.none => PyVal.none

/-- Lift the number-or-`None` result of a numeric primitive back into a
field value. -/
def numToVal : Option Rat → PyVal
  | some q => PyVal.num q
  | Option.none => PyVal.none

def norm_employee_name_ps (item : FieldValue) : FieldValue :=
  ⟨optToVal (squash_spaces item.value), item.confidence⟩

def norm_employer_name_ps (item : FieldValue) : FieldValue :=
  ⟨optToVal (squash_spaces item.value), item.confidence⟩

def norm_employer_address_ps (item : FieldValue) : FieldValue :=
  ⟨optToVal (squash_spaces item.value), item.confidence⟩

/-- `norm_ein_ps` is `_keep`: the paystub EIN passes through unvalidated
("just return as-is; merge will fallback to EV"). -/
def norm_ein_ps (item : FieldValue) : FieldValue :=
  ⟨item.value, item.confidence⟩

def norm_job_title_ps (item : FieldValue) : FieldValue :=
  ⟨optToVal (titlecase_job item.value), item.confidence⟩

def norm_pay_date_ps (item : FieldValue) : FieldValue :=
  ⟨optToVal (parse_date item.value), item.confidence⟩

def norm_gross_amount_ps (item : FieldValue) : FieldValue :=
  ⟨optToVal (clean_money item.value), item.confidence⟩

def norm_total_hours_ps (item : FieldValue) : FieldValue :=
  ⟨numToVal (to_float item.value), item.confidence⟩

def norm_period_start_ps (item : FieldValue) : FieldValue :=
  ⟨optToVal (parse_date item.value), item.confidence⟩

def norm_period_end_ps (item : FieldValue) : FieldValue :=
  ⟨optToVal (parse_date item.value), item.confidence⟩

def norm_employee_name_ev (item : FieldValue) : FieldValue :=
  ⟨optToVal (squash_spaces item.value), item.confidence⟩

def norm_employer_name_ev (item : FieldValue) : FieldValue :=
  ⟨optToVal (squash_spaces item.value), item.confidence⟩

def norm_employer_address_ev (item : FieldValue) : FieldValue :=
  ⟨optToVal (squash_spaces item.value), item.confidence⟩

/-- `digits = "".join(ch for ch in str(raw) if ch.isdigit()) if raw else None`. -/
def einDigits (v : PyVal) : Option String :=
  if pyFalsy v then Option.none
  else some (String.mk (filterDigits (pyValStr v)))

def norm_ein_ev (item : FieldValue) : FieldValue :=
  match einDigits item.value with
  | some d =>
    if d ≠ "" ∧ is_valid_ein (some d) = true then ⟨PyVal.str d, item.confidence⟩
    else ⟨PyVal.none, item.confidence⟩
  | Option.none => ⟨PyVal.none, item.confidence⟩

def norm_hire_date_ev (item : FieldValue) : FieldValue :=
  ⟨optToVal (parse_date item.value), item.confidence⟩

def norm_job_title_ev (item : FieldValue) : FieldValue :=
  ⟨optToVal (titlecase_job item.value), item.confidence⟩

def norm_total_hours_ev (item : FieldValue) : FieldValue :=
  ⟨numToVal (to_float item.value), item.confidence⟩

def norm_lof_date_ev (item : FieldValue) : FieldValue :=
  ⟨optToVal (parse_date item.value), item.confidence⟩

/-- The label prefixes stripped from the employment-end reason. -/
def lofPrefixes : List String := ["Reason:", "reason:", "Reason -", "Reason â€“"]

/-- `squash_spaces` applied to a string-or-`None` intermediate. -/
def squashOpt : Option String → Option String
  | some s => squash_spaces (PyVal.str s)
  | Option.none => Option.none

/-- `norm_lof_reason_ev`: strip a leading `Reason:`-style label, then squash.
A truthy numeric value would raise `AttributeError` inside `strip_prefix`
(see `strip_prefix_raises` and `build_unified_raises`); that branch is
mapped to an absent value here and no theorem relies on it. -/
def norm_lof_reason_ev (item : FieldValue) : FieldValue :=
  let v1 : Option String :=
    match item.value with
    | PyVal.str s => strip_prefix (some s) lofPrefixes
    | _ => Option.none
  ⟨optToVal (squashOpt v1), item.confidence⟩

def norm_last_paycheck_date_ev (item : FieldValue) : FieldValue :=
  ⟨optToVal (parse_date item.value), item.confidence⟩

/-! ## Canonical schema and priority table (`merge/rules.py`) -/

/-- `CANONICAL_FIELDS`: the fields the unified JSON exposes, in order. -/
def CANONICAL_FIELDS : List String :=
  ["EmployeeName", "EmployerName", "EmployerAddress", "EIN", "HireDate",
   "JobTitle", "PayDate", "GrossAmount", "TotalHours", "PayPeriodStartDate",
   "PayPeriodEndDate", "PayFrequency", "LossOfEmploymentDate",
   "LossOfEmploymentReason", "DateOfLastPaycheck"]

/-- `PRIORITY`: hard source preference per field (`PRIORITY.get(field, [])`
semantics: unknown fields give the empty list). -/
def PRIORITY (field : String) : List String :=
  if field = "EmployeeName" then ["paystub", "ev"]
  else if field = "EmployerName" then ["paystub", "ev"]
  else if field = "EmployerAddress" then ["paystub", "ev"]
  else if field = "EIN" then ["paystub", "ev"]
  else if field = "JobTitle" then ["paystub", "ev"]
  else if field = "TotalHours" then ["paystub", "ev"]
  else if field = "PayDate" then ["paystub"]
  else if field = "GrossAmount" then ["paystub"]
  else if field = "PayPeriodStartDate" then ["paystub"]
  else if field = "PayPeriodEndDate" then ["paystub"]
  else if field = "PayFrequency" then ["derived"]
  else if field = "HireDate" then ["ev"]
  else if field = "LossOfEmploymentDate" then ["ev"]
  else if field = "LossOfEmploymentReason" then ["ev"]
  else if field = "DateOfLastPaycheck" then ["ev"]
  else []

/-! ## Normalization and merge (`merge/merge_engine.py`) -/

/-- `normalize_paystub`: map and clean paystub fields into canonical names
(the `take` calls of the source; a canonical key is present in the output
exactly when its raw key is present in the input). -/
def normalize_paystub (ps : String → Option FieldValue) : String → Option FieldValue :=
  fun k =>
    if k = "EmployeeName" then (ps "EmployeeName").map norm_employee_name_ps
    else if k = "EmployerName" then (ps "EmployerName").map norm_employer_name_ps
    else if k = "EmployerAddress" then (ps "EmployerAddress").map norm_employer_address_ps
    else if k = "EIN" then (ps "EIN").map norm_ein_ps
    else if k = "JobTitle" then (ps "JobTitle").map norm_job_title_ps
    else if k = "PayDate" then (ps "PayDate").map norm_pay_date_ps
    else if k = "GrossAmount" then (ps "CurrentPeriodGrossPay").map norm_gross_amount_ps
    else if k = "TotalHours" then (ps "TotalHoursWorked").map norm_total_hours_ps
    else if k = "PayPeriodStartDate" then (ps "PayPeriodStartDate").map norm_period_start_ps
    else if k = "PayPeriodEndDate" then (ps "PayPeriodEndDate").map norm_period_end_ps
    else Option.none

/-- `normalize_ev`: map and clean EV fields into canonical names. -/
def normalize_ev (ev : String → Option FieldValue) : String → Option FieldValue :=
  fun k =>
    if k = "EmployeeName" then (ev "EmployeeName").map norm_employee_name_ev
    else if k = "EmployerName" then (ev "CompanyName").map norm_employer_name_ev
    else if k = "EmployerAddress" then (ev "Company Address").map norm_employer_address_ev
    else if k = "EIN" then (ev "EIN").map norm_ein_ev
    else if k = "HireDate" then (ev "HireDate").map norm_hire_date_ev
    else if k = "JobTitle" then (ev "JobTitle").map norm_job_title_ev
    else if k = "TotalHours" then (ev "AverageWorkingHours").map norm_total_hours_ev
    else if k = "LossOfEmploymentDate" then (ev "EmplyomentEndDate").map norm_lof_date_ev
    else if k = "LossOfEmploymentReason" then (ev "EmploymentEndDateReason").map norm_lof_reason_ev
    else if k = "DateOfLastPaycheck" then (ev "FinalPayCheckDate").map norm_last_paycheck_date_ev
    else Option.none

/-- `(dict.get(k) or {}).get("value")`: the value at a key, `None` when the
key is absent. -/
def valueAt (m : String → Option FieldValue) (k : String) : PyVal :=
  match m k with
  | some it => it.value
  | Option.none => PyVal.none

/-- The date a pay-period boundary value denotes: `None`/empty fails the
`if not s or not e` guard; `strptime(value, "%Y-%m-%d")` on a non-string
raises `TypeError`, caught by the surrounding `except`; on a string it must
fully match the layout and denote a constructible date. -/
def dateOfVal (v : PyVal) : Option (Nat × Nat × Nat) :=
  if pyFalsy v then Option.none
  else
    match v with
    | PyVal.str s =>
      match fmtYMD s.toList with
      | some (y, m, d) => if validDate y m d then some (y, m, d) else Option.none
      | Option.none => Option.none
    | _ => Option.none

/-- The frequency label for an inclusive day count. -/
def freqLabel (days : Int) : String :=
  if days ≤ 8 then "Weekly"
  else if days ≤ 15 then "Bi-Weekly"
  else if days ≤ 20 then "Semi-Monthly"
  else "Monthly"

/-- `derive_pay_frequency`: compute PayFrequency from the normalized
paystub pay-period dates; `(dt_e - dt_s).days + 1` is the difference of
Julian day numbers plus one. -/
def derive_pay_frequency (ps_norm : String → Option FieldValue) : Option FieldValue :=
  match dateOfVal (valueAt ps_norm "PayPeriodStartDate"),
        dateOfVal (valueAt ps_norm "PayPeriodEndDate") with
  | some ds, some de =>
    let days : Int := (jdn de.1 de.2.1 de.2.2 : Int) - (jdn ds.1 ds.2.1 ds.2.2 : Int) + 1
    some ⟨PyVal.str (freqLabel days), some 100⟩
  | _, _ => Option.none

/-- `item.get("value") not in (None, "")` (membership uses `==`, so any
number is acceptable). -/
def mergeTruthy : PyVal → Bool
  | PyVal.none => false
  | PyVal.str s => s ≠ ""
  | PyVal.num _ => true

/-- The `{"value": None, "confidence": None}` placeholder. -/
def nullField : FieldValue := ⟨PyVal.none, Option.none⟩

/-- The per-field loop of `merge_by_priority`: first priority source whose
normalized set holds a non-`None`, non-empty value ( `derived` entries are
skipped inside the loop and handled afterwards). -/
def chooseBySrc (ps_norm ev_norm : String → Option FieldValue) (field : String) :
    List String → Option FieldValue
  | [] => Option.none
  | src :: rest =>
    if src = "paystub" then
      match ps_norm field with
      | some item =>
        if mergeTruthy item.value then some item
        else chooseBySrc ps_norm ev_norm field rest
      | Option.none => chooseBySrc ps_norm ev_norm field rest
    else if src = "ev" then
      match ev_norm field with
      | some item =>
        if mergeTruthy item.value then some item
        else chooseBySrc ps_norm ev_norm field rest
      | Option.none => chooseBySrc ps_norm ev_norm field rest
    else chooseBySrc ps_norm ev_norm field rest

/-- `merge_by_priority`: hard source priority per canonical field, then the
derived PayFrequency overwrites its entry when the derivation succeeds. -/
def merge_by_priority (ps_norm ev_norm : String → Option FieldValue) :
    List (String × FieldValue) :=
  let base := CANONICAL_FIELDS.map
    (fun f => (f, (chooseBySrc ps_norm ev_norm f (PRIORITY f)).getD nullField))
  if CANONICAL_FIELDS.contains "PayFrequency" &&
      (PRIORITY "PayFrequency").contains "derived" then
    match derive_pay_frequency ps_norm with
    | some fv => base.map (fun p => if p.1 = "PayFrequency" then ("PayFrequency", fv) else p)
    | Option.none => base
  else base

/-- The unified JSON returned by `build_unified`. -/
structure Unified where
  status : String
  extracted_fields : List (String × FieldValue)
deriving DecidableEq, Repr

/-- `build_unified`: normalize both sources (an absent source is the empty
mapping `fun k => Option.none`, matching `paystub_raw or {}`), merge by
priority, wrap with the status marker. -/
def build_unified (paystub_raw ev_raw : String → Option FieldValue) : Unified :=
  ⟨"success", merge_by_priority (normalize_paystub paystub_raw) (normalize_ev ev_raw)⟩

/-- Whether the Python `build_unified` raises on these raw sets: the only
exception path in the engine is `strip_prefix`'s `s.lstrip()` on a truthy
non-string value, reached by `norm_lof_reason_ev` from the EV raw key
`EmploymentEndDateReason` (no other normalizer calls `strip_prefix`, and
every other primitive coerces with `str(...)` or `isinstance` first). -/
def build_unified_raises (_paystub_raw ev_raw : String → Option FieldValue) : Bool :=
  match ev_raw "EmploymentEndDateReason" with
  | some it => strip_prefix_raises it.value
  | Option.none => false

/-- The empty raw field set (a `None` or `{}` source). -/
def emptyRaw : String → Option FieldValue := fun _ => Option.none

/-- A paystub raw set whose `CurrentPeriodGrossPay` is the OCR-split
currency string from the spec's scenario. -/
def psGrossRaw : String → Option FieldValue := fun k =>
  if k = "CurrentPeriodGrossPay" then some ⟨PyVal.str "$3, 461. 54", some 92⟩
  else Option.none

/-- An EV raw set whose only field is a malformed tax ID with a non-null
confidence. -/
def evBadEinRaw : String → Option FieldValue := fun k =>
  if k = "EIN" then some ⟨PyVal.str "12345", some 88⟩ else Option.none

/-- An EV raw set that is well-formed per the data model (values are
text-or-number-or-null) but carries a numeric employment-end reason. -/
def evNumReasonRaw : String → Option FieldValue := fun k =>
  if k = "EmploymentEndDateReason" then some ⟨PyVal.num (3/2 : Rat), some 50⟩
  else Option.none

/-- Values-only view of an optional field. -/
def valOf (o : Option FieldValue) : Option PyVal := o.map FieldValue.value

/-- Paystub-side normalized set for the C5 witness. -/
def psNormA : String → Option FieldValue := fun k =>
  if k = "EmployeeName" then some ⟨PyVal.str "JOHN", some 10⟩ else Option.none

/-- The same values as `psNormA` but different confidences. -/
def psNormB : String → Option FieldValue := fun k =>
  if k = "EmployeeName" then some ⟨PyVal.str "JOHN", some 99⟩ else Option.none

/-- EV-side normalized set for the C5 witness. -/
def evNormA : String → Option FieldValue := fun k =>
  if k = "EmployeeName" then some ⟨PyVal.str "JON", some 80⟩ else Option.none

/-- The same values as `evNormA` but different confidences. -/
def evNormB : String → Option FieldValue := fun k =>
  if k = "EmployeeName" then some ⟨PyVal.str "JON", Option.none⟩ else Option.none

/-- The adjacent pairs of a character list, in order. -/
def pairsOf : List Char → List (Char × Char)
  | c :: c2 :: rest => (c, c2) :: pairsOf (c2 :: rest)
  | _ => []

/-- The invariant shape of a squashed string: nonempty, no leading or
trailing whitespace, no two adjacent spaces, and every whitespace character
is a plain space. -/
def Sq (u : List Char) : Prop :=
  u ≠ [] ∧ (∀ c, u.head? = some c → pyIsSpace c = false) ∧
  (∀ c, u.getLast? = some c → pyIsSpace c = false) ∧
  (' ', ' ') ∉ pairsOf u ∧
  (∀ c ∈ u, pyIsSpace c = true → c = ' ')

/-- The one raw shape on which `titlecase_job` is not idempotent: a nonempty
string that squashes to nothing (whitespace-only). -/
def wsOnlyStr : PyVal → Bool
  | PyVal.str s => if s = "" then false else decide (pySquash s.toList = [])
  | _ => false

/-! ## Shared lemmas about the merged record's shape -/

theorem lookup_map_pick (fields : List String) (pick : String → FieldValue) (k : String) :
    List.lookup k (fields.map (fun f => (f, pick f))) =
      if k ∈ fields then some (pick k) else Option.none := by
  induction fields with
  | nil => simp
  | cons f fs ih =>
    simp only [List.map_cons, List.lookup_cons, List.mem_cons]
    by_cases h : k = f
    · subst h
      simp
    · have hb : (k == f) = false := by
        simpa using h
      simp [hb, ih, h]

theorem lookup_replace_ne (l : List (String × FieldValue)) (k0 : String) (fv : FieldValue)
    (k : String) (h : k ≠ k0) :
    List.lookup k (l.map (fun p => if p.1 = k0 then (k0, fv) else p)) = List.lookup k l := by
  induction l with
  | nil => rfl
  | cons p l ih =>
    obtain ⟨pk, pv⟩ := p
    simp only [List.map_cons]
    by_cases hp : pk = k0
    · subst hp
      have h2 : (k == pk) = false := by simpa using h
      simp [List.lookup_cons, h2, ih]
    · simp only [if_neg hp]
      by_cases hkp : k = pk
      · subst hkp
        simp [List.lookup_cons]
      · have h2 : (k == pk) = false := by simpa using hkp
        simp [List.lookup_cons, h2, ih]

theorem lookup_replace_eq (l : List (String × FieldValue)) (k0 : String) (fv : FieldValue) :
    List.lookup k0 (l.map (fun p => if p.1 = k0 then (k0, fv) else p)) =
      (List.lookup k0 l).map (fun _ => fv) := by
  induction l with
  | nil => rfl
  | cons p l ih =>
    obtain ⟨pk, pv⟩ := p
    simp only [List.map_cons]
    by_cases hp : pk = k0
    · subst hp
      simp [List.lookup_cons]
    · have h2 : (k0 == pk) = false := by
        simpa using fun hkp => hp hkp.symm
      simp [List.lookup_cons, if_neg hp, h2, ih]

/-- The static guard of the derived-field step evaluates to true. -/
theorem payfreq_guard :
    (CANONICAL_FIELDS.contains "PayFrequency" &&
      (PRIORITY "PayFrequency").contains "derived") = true := by decide

/-- Looking up any field other than PayFrequency in the merged record walks
the priority table. -/
theorem mergeLookup_ne (ps_norm ev_norm : String → Option FieldValue) (k : String)
    (hk : k ≠ "PayFrequency") :
    List.lookup k (merge_by_priority ps_norm ev_norm) =
      if k ∈ CANONICAL_FIELDS then
        some ((chooseBySrc ps_norm ev_norm k (PRIORITY k)).getD nullField)
      else Option.none := by
  unfold merge_by_priority
  rw [payfreq_guard]
  cases hd : derive_pay_frequency ps_norm with
  | none =>
    simp only [if_true]
    exact lookup_map_pick CANONICAL_FIELDS _ k
  | some fv =>
    simp only [if_true]
    rw [lookup_replace_ne _ _ _ _ hk]
    exact lookup_map_pick CANONICAL_FIELDS _ k

/-- PayFrequency in the merged record is exactly the derivation's result,
with the null placeholder when the derivation yields nothing. -/
theorem mergeLookup_payfreq (ps_norm ev_norm : String → Option FieldValue) :
    List.lookup "PayFrequency" (merge_by_priority ps_norm ev_norm) =
      some ((derive_pay_frequency ps_norm).getD nullField) := by
  unfold merge_by_priority
  rw [payfreq_guard]
  cases hd : derive_pay_frequency ps_norm with
  | none =>
    simp only [if_true, Option.getD]
    rw [lookup_map_pick CANONICAL_FIELDS _ "PayFrequency"]
    have hmem : "PayFrequency" ∈ CANONICAL_FIELDS := by decide
    rw [if_pos hmem]
    rfl
  | some fv =>
    simp only [if_true, Option.getD]
    rw [lookup_replace_eq]
    rw [lookup_map_pick CANONICAL_FIELDS _ "PayFrequency"]
    have hmem : "PayFrequency" ∈ CANONICAL_FIELDS := by decide
    rw [if_pos hmem]
    rfl

/-! ## C1: gross-amount normalization -/


/-- C1: the claim says the gross-amount normalization applies currency
repair and then currency-to-number, making the canonical GrossAmount a
number (3461.54 for the raw "$3, 461. 54").  The code's
`norm_gross_amount_ps` applies only `clean_money`; `money_to_float` is
never called anywhere, so the unified GrossAmount is the repaired *string*
"$3,461.54" (the repaired string would indeed convert to the number 3461.54
had `money_to_float` been applied, which marks the missing step). -/
theorem c1_gross_amount_stays_string :
    List.lookup "GrossAmount" (build_unified psGrossRaw emptyRaw).extracted_fields
        = some ⟨PyVal.str "$3,461.54", some 92⟩
    ∧ money_to_float (some "$3,461.54") = some (3461.54 : Rat)
    ∧ PyVal.str "$3,461.54" ≠ PyVal.num (3461.54 : Rat) := by
  refine ⟨by decide, ?_, by decide⟩
  have h : money_to_float (some "$3,461.54") =
      some (((digitsVal ['3', '4', '6', '1'] : Rat) + fracVal ['5', '4']) * 10 ^ (0 : Int)) :=
    rfl
  rw [h]
  have h2 : digitsVal ['3', '4', '6', '1'] = 3461 := by decide
  have h3 : digitsVal ['5', '4'] = 54 := by decide
  unfold fracVal
  rw [h2, h3]
  norm_num

/-! ## C2: tax-ID normalizers -/

/-- C2 counterexample: the claim quantifies over both sources, but the
paystub tax-ID normalizer is a pure passthrough.  On the raw value
"12-3456789" (whose digit string has nine digits, hence fails the 6-digit
validation) the claim demands an absent canonical value; `norm_ein_ps`
returns the raw string unchanged. -/
theorem c2_paystub_ein_counterexample :
    (norm_ein_ps ⟨PyVal.str "12-3456789", some 70⟩).value = PyVal.str "12-3456789"
    ∧ is_valid_ein (some (String.mk (filterDigits ("12-3456789".toList)))) = false
    ∧ PyVal.str "12-3456789" ≠ PyVal.none := by
  refine ⟨by decide, by decide, by decide⟩

/-- Digit runs produced by `filterDigits` contain only digits. -/
theorem filterDigits_all (cs : List Char) : (filterDigits cs).all Char.isDigit = true := by
  simp only [filterDigits, List.all_eq_true]
  intro c hc
  exact (List.mem_filter.mp hc).2

/-- `is_valid_ein` on a present value, unfolded. -/
theorem is_valid_ein_some (d : String) :
    is_valid_ein (some d) =
      if d = "" then false
      else
        (d.toList.length == 6 && d.toList.all Char.isDigit) ||
          (d.toList.length == 7 && (d.toList.take 6).all Char.isDigit &&
            d.toList.getLast? == some '\n') := rfl

/-- On an all-digit string `is_valid_ein` means exactly: six digits (the
newline branch of the regex anchor `$` is unreachable). -/
theorem is_valid_ein_digits (d : String) (hd : d.toList.all Char.isDigit = true) :
    is_valid_ein (some d) = true ↔ d.length = 6 := by
  rw [is_valid_ein_some]
  have hlenstr : d.length = d.toList.length := rfl
  by_cases h0 : d = ""
  · subst h0
    constructor
    · intro h
      exact absurd h (by decide)
    · intro h
      exact absurd h (by decide)
  · rw [if_neg h0, hlenstr]
    constructor
    · intro h
      rcases Bool.or_eq_true_iff.mp h with h6 | h7
      · have := (Bool.and_eq_true_iff.mp h6).1
        exact Nat.beq_eq_true_eq _ _ |>.mp this
      · exfalso
        have hlast := (Bool.and_eq_true_iff.mp h7).2
        have hlast2 : d.toList.getLast? = some '\n' := by
          simpa using hlast
        have hmem : '\n' ∈ d.toList := List.mem_of_getLast?_eq_some hlast2
        have : Char.isDigit '\n' = true := List.all_eq_true.mp hd _ hmem
        exact absurd this (by decide)
    · intro h
      apply Bool.or_eq_true_iff.mpr
      left
      apply Bool.and_eq_true_iff.mpr
      exact ⟨by simpa using h, hd⟩

/-- C2 (amended): only the EV tax-ID normalizer validates: it extracts the
digits of the raw string and yields them exactly when they pass the 6-digit
validation, yielding an absent value otherwise, always passing the raw
confidence through; the paystub tax-ID normalizer returns value and
confidence unchanged (no digit extraction, no validation). -/
theorem c2_tax_id_normalizers :
    (∀ it : FieldValue, norm_ein_ps it = ⟨it.value, it.confidence⟩)
    ∧ (∀ it : FieldValue, (norm_ein_ev it).confidence = it.confidence)
    ∧ (∀ (it : FieldValue) (s : String), it.value = PyVal.str s →
        is_valid_ein (some (String.mk (filterDigits s.toList))) = true →
        (norm_ein_ev it).value = PyVal.str (String.mk (filterDigits s.toList)))
    ∧ (∀ (it : FieldValue) (s : String), it.value = PyVal.str s →
        is_valid_ein (some (String.mk (filterDigits s.toList))) = false →
        (norm_ein_ev it).value = PyVal.none)
    ∧ (∀ (it : FieldValue) (s : String), (norm_ein_ev it).value = PyVal.str s →
        s.length = 6 ∧ s.toList.all Char.isDigit = true) := by
  have hein : ∀ s : String, s ≠ "" →
      einDigits (PyVal.str s) = some (String.mk (filterDigits s.toList)) := by
    intro s hs
    unfold einDigits
    have : pyFalsy (PyVal.str s) = false := by
      simp [pyFalsy, hs]
    rw [this]
    simp [pyValStr]
  have hnone : ∀ it : FieldValue, einDigits it.value = Option.none →
      norm_ein_ev it = ⟨PyVal.none, it.confidence⟩ := by
    intro it h
    unfold norm_ein_ev
    rw [h]
  have hsome : ∀ (it : FieldValue) (d : String), einDigits it.value = some d →
      norm_ein_ev it =
        if d ≠ "" ∧ is_valid_ein (some d) = true then ⟨PyVal.str d, it.confidence⟩
        else ⟨PyVal.none, it.confidence⟩ := by
    intro it d h
    unfold norm_ein_ev
    rw [h]
  refine ⟨fun it => rfl, ?_, ?_, ?_, ?_⟩
  · intro it
    rcases h : einDigits it.value with _ | d
    · rw [hnone it h]
    · rw [hsome it d h]
      by_cases hv : d ≠ "" ∧ is_valid_ein (some d) = true
      · rw [if_pos hv]
      · rw [if_neg hv]
  · intro it s hs hvalid
    have hs0 : s ≠ "" := by
      intro hc
      subst hc
      exact absurd hvalid (by decide)
    have hdne : String.mk (filterDigits s.toList) ≠ "" := by
      intro hc
      rw [hc] at hvalid
      exact absurd hvalid (by decide)
    rw [hsome it _ (by rw [hs]; exact hein s hs0), if_pos ⟨hdne, hvalid⟩]
  · intro it s hs hvalid
    by_cases hs0 : s = ""
    · subst hs0
      rw [hnone it (by rw [hs]; rfl)]
    · rw [hsome it _ (by rw [hs]; exact hein s hs0)]
      have hneg : ¬(String.mk (filterDigits s.toList) ≠ "" ∧
          is_valid_ein (some (String.mk (filterDigits s.toList))) = true) := by
        intro hc
        rw [hvalid] at hc
        exact absurd hc.2 (by decide)
      rw [if_neg hneg]
  · intro it s hs
    rcases h : einDigits it.value with _ | d
    · rw [hnone it h] at hs
      exact absurd hs (by simp)
    · rw [hsome it d h] at hs
      by_cases hv : d ≠ "" ∧ is_valid_ein (some d) = true
      · rw [if_pos hv] at hs
        have hsd : d = s := by
          simpa using hs
        subst hsd
        have hdig : d.toList.all Char.isDigit = true := by
          unfold einDigits at h
          by_cases hf : pyFalsy it.value = true
          · rw [if_pos hf] at h
            exact absurd h (by simp)
          · rw [if_neg (by simp [hf])] at h
            have hd2 : d = String.mk (filterDigits (pyValStr it.value)) := by
              injection h with h2
              exact h2.symm
            rw [hd2]
            have hlist : (String.mk (filterDigits (pyValStr it.value))).toList =
                filterDigits (pyValStr it.value) := rfl
            rw [hlist]
            exact filterDigits_all (pyValStr it.value)
        exact ⟨(is_valid_ein_digits d hdig).mp hv.2, hdig⟩
      · rw [if_neg hv] at hs
        exact absurd hs (by simp)

/-- An invalid (or empty-digit) tax-ID string normalizes to an absent value
with the confidence kept. -/
theorem norm_ein_ev_invalid (it : FieldValue) (s : String) (hs : it.value = PyVal.str s)
    (hvalid : is_valid_ein (some (String.mk (filterDigits s.toList))) = false) :
    norm_ein_ev it = ⟨PyVal.none, it.confidence⟩ := by
  unfold norm_ein_ev
  by_cases hs0 : s = ""
  · subst hs0
    rw [hs]
    rfl
  · have hein : einDigits it.value = some (String.mk (filterDigits s.toList)) := by
      rw [hs]
      unfold einDigits
      have hf : pyFalsy (PyVal.str s) = false := by
        simp [pyFalsy, hs0]
      rw [hf]
      simp [pyValStr]
    rw [hein]
    have hneg : ¬(String.mk (filterDigits s.toList) ≠ "" ∧
        is_valid_ein (some (String.mk (filterDigits s.toList))) = true) := by
      intro hc
      rw [hvalid] at hc
      exact absurd hc.2 (by decide)
    exact if_neg hneg

/-- C2 witness: the amended statement applied at concrete inputs: the
paystub passthrough on a malformed tax ID, and the EV normalizer accepting
"12-3456" (digits "123456") and rejecting "12345". -/
theorem c2_tax_id_normalizers_witness :
    norm_ein_ps ⟨PyVal.str "98-7654321", some 55⟩ = ⟨PyVal.str "98-7654321", some 55⟩
    ∧ (norm_ein_ev ⟨PyVal.str "12-3456", some 88⟩).confidence = some 88
    ∧ (norm_ein_ev ⟨PyVal.str "12-3456", some 88⟩).value = PyVal.str "123456"
    ∧ (norm_ein_ev ⟨PyVal.str "12345", some 88⟩).value = PyVal.none
    ∧ "123456".length = 6 := by
  obtain ⟨h1, h2, h3, h4, h5⟩ := c2_tax_id_normalizers
  refine ⟨h1 _, h2 _, ?_, h4 ⟨PyVal.str "12345", some 88⟩ "12345" rfl (by decide), ?_⟩
  · have := h3 ⟨PyVal.str "12-3456", some 88⟩ "12-3456" rfl (by decide)
    simpa using this
  · exact (h5 ⟨PyVal.str "12-3456", some 88⟩ "123456" (by decide)).1

/-! ## C3: invalid single-source value and confidence visibility -/


/-- C3 counterexample: with the EV source alone supplying a malformed tax ID
(confidence 88), the per-source normalized set preserves the confidence,
but the system's output — the unified record of `build_unified` — resolves
EIN to `{value: null, confidence: null}`: the source's confidence score is
*not* preserved in the output, contradicting the claim. -/
theorem c3_confidence_dropped_counterexample :
    normalize_ev evBadEinRaw "EIN" = some ⟨PyVal.none, some 88⟩
    ∧ List.lookup "EIN" (build_unified emptyRaw evBadEinRaw).extracted_fields
        = some ⟨PyVal.none, Option.none⟩
    ∧ (Option.none : Option Rat) ≠ some 88 := by
  refine ⟨by decide, by decide, by decide⟩

/-- C3 (amended): when exactly one source (EV) supplies a tax ID and it
fails validation, the *normalizer* output preserves the source confidence
next to the absent value — so the "gave nothing" (key absent) versus "gave
something invalid" (key present, value null, confidence non-null)
distinction exists in the per-source normalized set — but the merge maps
the field to `{value: null, confidence: null}` in the unified record, so
the distinction is not visible in the system's output. -/
theorem c3_invalid_value_confidence :
    (∀ (ps ev : String → Option FieldValue) (it : FieldValue) (s : String),
      ps "EIN" = Option.none →
      ev "EIN" = some it →
      it.value = PyVal.str s →
      is_valid_ein (some (String.mk (filterDigits s.toList))) = false →
      normalize_ev ev "EIN" = some ⟨PyVal.none, it.confidence⟩
      ∧ List.lookup "EIN" (build_unified ps ev).extracted_fields = some nullField)
    ∧ (∀ ev2 : String → Option FieldValue, ev2 "EIN" = Option.none →
        normalize_ev ev2 "EIN" = Option.none) := by
  constructor
  · intro ps ev it s hps hev hsv hvalid
    have hevn : normalize_ev ev "EIN" = some ⟨PyVal.none, it.confidence⟩ := by
      have h0 : normalize_ev ev "EIN" = (ev "EIN").map norm_ein_ev := rfl
      rw [h0, hev]
      show some (norm_ein_ev it) = _
      rw [norm_ein_ev_invalid it s hsv hvalid]
    refine ⟨hevn, ?_⟩
    have hpsn : normalize_paystub ps "EIN" = Option.none := by
      have h0 : normalize_paystub ps "EIN" = (ps "EIN").map norm_ein_ps := rfl
      rw [h0, hps]
      rfl
    have hext : (build_unified ps ev).extracted_fields =
        merge_by_priority (normalize_paystub ps) (normalize_ev ev) := rfl
    rw [hext, mergeLookup_ne _ _ _ (by decide)]
    rw [if_pos (by decide : "EIN" ∈ CANONICAL_FIELDS)]
    have hpri : PRIORITY "EIN" = ["paystub", "ev"] := rfl
    rw [hpri]
    have hch : chooseBySrc (normalize_paystub ps) (normalize_ev ev) "EIN"
        ["paystub", "ev"] = Option.none := by
      simp [chooseBySrc, hpsn, hevn, mergeTruthy]
    rw [hch]
    rfl
  · intro ev2 h
    have h0 : normalize_ev ev2 "EIN" = (ev2 "EIN").map norm_ein_ev := rfl
    rw [h0, h]
    rfl

/-- C3 witness: the amended statement at the concrete malformed-EIN run. -/
theorem c3_invalid_value_confidence_witness :
    normalize_ev evBadEinRaw "EIN" = some ⟨PyVal.none, some 88⟩
    ∧ List.lookup "EIN" (build_unified emptyRaw evBadEinRaw).extracted_fields = some nullField
    ∧ normalize_ev emptyRaw "EIN" = Option.none := by
  obtain ⟨h1, h2⟩ := c3_invalid_value_confidence
  obtain ⟨ha, hb⟩ := h1 emptyRaw evBadEinRaw ⟨PyVal.str "12345", some 88⟩ "12345"
    rfl (by decide) rfl (by decide)
  exact ⟨ha, hb, h2 emptyRaw rfl⟩

/-! ## C6: totality of `build_unified` -/


/-- C6: the claim says `build_unified` returns without raising for every
combination of well-formed RawFieldSets.  The code raises: with a numeric
`EmploymentEndDateReason` (a number is a well-formed RawFieldValue value),
`norm_lof_reason_ev` passes the float into `strip_prefix`, whose
`s.lstrip()` raises `AttributeError` — contradicting both the claim and the
module's own docstring ("All helpers ... should never raise on bad
input").  The theorem evaluates the exception-reachability predicate at the
failing input, and also checks that the raising value is truthy (so the
`if not s` guard does not catch it). -/
theorem c6_build_unified_raises_on_numeric_reason :
    build_unified_raises emptyRaw evNumReasonRaw = true
    ∧ pyFalsy (PyVal.num (3/2 : Rat)) = false := by
  constructor
  · have h : build_unified_raises emptyRaw evNumReasonRaw
        = strip_prefix_raises (PyVal.num (3/2 : Rat)) := rfl
    rw [h]
    unfold strip_prefix_raises
    simp only [decide_eq_true_eq, ne_eq, decide_not]
    norm_num
  · unfold pyFalsy
    norm_num

/-! ## C5: priority determinism and confidence independence -/


/-- Evaluation: a `paystub` priority entry with a present item. -/
theorem chooseBySrc_paystub_some (ps_norm ev_norm : String → Option FieldValue)
    (f : String) (rest : List String) (it : FieldValue) (h : ps_norm f = some it) :
    chooseBySrc ps_norm ev_norm f ("paystub" :: rest) =
      if mergeTruthy it.value = true then some it
      else chooseBySrc ps_norm ev_norm f rest := by
  have hred : chooseBySrc ps_norm ev_norm f ("paystub" :: rest) =
      match ps_norm f with
      | some item =>
        if mergeTruthy item.value = true then some item
        else chooseBySrc ps_norm ev_norm f rest
      | Option.none => chooseBySrc ps_norm ev_norm f rest := rfl
  rw [hred, h]

/-- Evaluation: a `paystub` priority entry with an absent item. -/
theorem chooseBySrc_paystub_none (ps_norm ev_norm : String → Option FieldValue)
    (f : String) (rest : List String) (h : ps_norm f = Option.none) :
    chooseBySrc ps_norm ev_norm f ("paystub" :: rest) =
      chooseBySrc ps_norm ev_norm f rest := by
  have hred : chooseBySrc ps_norm ev_norm f ("paystub" :: rest) =
      match ps_norm f with
      | some item =>
        if mergeTruthy item.value = true then some item
        else chooseBySrc ps_norm ev_norm f rest
      | Option.none => chooseBySrc ps_norm ev_norm f rest := rfl
  rw [hred, h]

/-- Evaluation: an `ev` priority entry with a present item. -/
theorem chooseBySrc_ev_some (ps_norm ev_norm : String → Option FieldValue)
    (f : String) (rest : List String) (it : FieldValue) (h : ev_norm f = some it) :
    chooseBySrc ps_norm ev_norm f ("ev" :: rest) =
      if mergeTruthy it.value = true then some it
      else chooseBySrc ps_norm ev_norm f rest := by
  have hred : chooseBySrc ps_norm ev_norm f ("ev" :: rest) =
      match ev_norm f with
      | some item =>
        if mergeTruthy item.value = true then some item
        else chooseBySrc ps_norm ev_norm f rest
      | Option.none => chooseBySrc ps_norm ev_norm f rest := rfl
  rw [hred, h]

/-- Evaluation: an `ev` priority entry with an absent item. -/
theorem chooseBySrc_ev_none (ps_norm ev_norm : String → Option FieldValue)
    (f : String) (rest : List String) (h : ev_norm f = Option.none) :
    chooseBySrc ps_norm ev_norm f ("ev" :: rest) =
      chooseBySrc ps_norm ev_norm f rest := by
  have hred : chooseBySrc ps_norm ev_norm f ("ev" :: rest) =
      match ev_norm f with
      | some item =>
        if mergeTruthy item.value = true then some item
        else chooseBySrc ps_norm ev_norm f rest
      | Option.none => chooseBySrc ps_norm ev_norm f rest := rfl
  rw [hred, h]

/-- Evaluation: any other priority tag (in particular `derived`) is skipped
inside the loop. -/
theorem chooseBySrc_other (ps_norm ev_norm : String → Option FieldValue)
    (f : String) (rest : List String) (src : String)
    (hp : src ≠ "paystub") (he : src ≠ "ev") :
    chooseBySrc ps_norm ev_norm f (src :: rest) =
      chooseBySrc ps_norm ev_norm f rest := by
  have hred : chooseBySrc ps_norm ev_norm f (src :: rest) =
      if src = "paystub" then
        match ps_norm f with
        | some item =>
          if mergeTruthy item.value = true then some item
          else chooseBySrc ps_norm ev_norm f rest
        | Option.none => chooseBySrc ps_norm ev_norm f rest
      else if src = "ev" then
        match ev_norm f with
        | some item =>
          if mergeTruthy item.value = true then some item
          else chooseBySrc ps_norm ev_norm f rest
        | Option.none => chooseBySrc ps_norm ev_norm f rest
      else chooseBySrc ps_norm ev_norm f rest := rfl
  rw [hred, if_neg hp, if_neg he]

/-- The per-field selection only depends on the values (not confidences) of
the two normalized sets, and returns a value-equal item. -/
theorem chooseBySrc_value_congr (ps1 ev1 ps2 ev2 : String → Option FieldValue)
    (f : String)
    (hps : valOf (ps1 f) = valOf (ps2 f)) (hev : valOf (ev1 f) = valOf (ev2 f)) :
    ∀ srcs : List String,
      valOf (chooseBySrc ps1 ev1 f srcs) = valOf (chooseBySrc ps2 ev2 f srcs)
  | [] => rfl
  | src :: rest => by
    have ih := chooseBySrc_value_congr ps1 ev1 ps2 ev2 f hps hev rest
    by_cases hp : src = "paystub"
    · subst hp
      rcases h1 : ps1 f with _ | it1 <;> rcases h2 : ps2 f with _ | it2
      · rw [chooseBySrc_paystub_none ps1 ev1 f rest h1,
          chooseBySrc_paystub_none ps2 ev2 f rest h2]
        exact ih
      · rw [h1, h2] at hps
        exact absurd hps (by simp [valOf])
      · rw [h1, h2] at hps
        exact absurd hps (by simp [valOf])
      · rw [h1, h2] at hps
        have hv : it1.value = it2.value := by
          simpa [valOf] using hps
        rw [chooseBySrc_paystub_some ps1 ev1 f rest it1 h1,
          chooseBySrc_paystub_some ps2 ev2 f rest it2 h2, hv]
        by_cases ht : mergeTruthy it2.value = true
        · rw [if_pos ht, if_pos ht]
          simp [valOf, hv]
        · rw [if_neg ht, if_neg ht]
          exact ih
    · by_cases he : src = "ev"
      · subst he
        rcases h1 : ev1 f with _ | it1 <;> rcases h2 : ev2 f with _ | it2
        · rw [chooseBySrc_ev_none ps1 ev1 f rest h1,
            chooseBySrc_ev_none ps2 ev2 f rest h2]
          exact ih
        · rw [h1, h2] at hev
          exact absurd hev (by simp [valOf])
        · rw [h1, h2] at hev
          exact absurd hev (by simp [valOf])
        · rw [h1, h2] at hev
          have hv : it1.value = it2.value := by
            simpa [valOf] using hev
          rw [chooseBySrc_ev_some ps1 ev1 f rest it1 h1,
            chooseBySrc_ev_some ps2 ev2 f rest it2 h2, hv]
          by_cases ht : mergeTruthy it2.value = true
          · rw [if_pos ht, if_pos ht]
            simp [valOf, hv]
          · rw [if_neg ht, if_neg ht]
            exact ih
      · rw [chooseBySrc_other ps1 ev1 f rest src hp he,
          chooseBySrc_other ps2 ev2 f rest src hp he]
        exact ih

/-- The derivation reads only the values of the two pay-period fields. -/
theorem derive_value_congr (ps1 ps2 : String → Option FieldValue)
    (hs : valueAt ps1 "PayPeriodStartDate" = valueAt ps2 "PayPeriodStartDate")
    (he : valueAt ps1 "PayPeriodEndDate" = valueAt ps2 "PayPeriodEndDate") :
    derive_pay_frequency ps1 = derive_pay_frequency ps2 := by
  unfold derive_pay_frequency
  rw [hs, he]

/-- Value agreement at a key gives `valueAt` agreement. -/
theorem valueAt_congr (m1 m2 : String → Option FieldValue) (k : String)
    (h : valOf (m1 k) = valOf (m2 k)) : valueAt m1 k = valueAt m2 k := by
  unfold valueAt
  rcases h1 : m1 k with _ | it1 <;> rcases h2 : m2 k with _ | it2 <;>
    rw [h1, h2] at h <;> simp [valOf] at h <;> simp [h]

/-- Defaulting preserves value agreement. -/
theorem getD_val_congr (o1 o2 : Option FieldValue) (h : valOf o1 = valOf o2) :
    (o1.getD nullField).value = (o2.getD nullField).value := by
  rcases o1 with _ | a <;> rcases o2 with _ | b <;> simp [valOf] at h ⊢ <;> simp [h]

/-- C5: for every canonical field whose priority list names both sources
(paystub first, as in the whole current table), when the paystub normalized
set holds a non-null, non-empty value the merge selects exactly that item;
and the values of the merged record depend only on the values of the
normalized sets, never on the confidence scores carried on them. -/
theorem c5_priority_determinism :
    (∀ (ps_norm ev_norm : String → Option FieldValue) (f : String) (it : FieldValue),
      f ∈ CANONICAL_FIELDS →
      PRIORITY f = ["paystub", "ev"] →
      ps_norm f = some it →
      mergeTruthy it.value = true →
      List.lookup f (merge_by_priority ps_norm ev_norm) = some it)
    ∧ (∀ ps1 ev1 ps2 ev2 : String → Option FieldValue,
        (∀ k, valOf (ps1 k) = valOf (ps2 k)) →
        (∀ k, valOf (ev1 k) = valOf (ev2 k)) →
        ∀ f, valOf (List.lookup f (merge_by_priority ps1 ev1)) =
          valOf (List.lookup f (merge_by_priority ps2 ev2))) := by
  constructor
  · intro ps_norm ev_norm f it hmem hpri hps htruthy
    have hne : f ≠ "PayFrequency" := by
      intro hc
      rw [hc] at hpri
      exact absurd hpri (by decide)
    rw [mergeLookup_ne _ _ _ hne, if_pos hmem, hpri,
      chooseBySrc_paystub_some _ _ _ _ _ hps, if_pos htruthy]
    rfl
  · intro ps1 ev1 ps2 ev2 hps hev f
    by_cases hf : f = "PayFrequency"
    · subst hf
      rw [mergeLookup_payfreq, mergeLookup_payfreq]
      rw [derive_value_congr ps1 ps2
        (valueAt_congr ps1 ps2 _ (hps _)) (valueAt_congr ps1 ps2 _ (hps _))]
    · rw [mergeLookup_ne _ _ _ hf, mergeLookup_ne _ _ _ hf]
      by_cases hmem : f ∈ CANONICAL_FIELDS
      · rw [if_pos hmem, if_pos hmem]
        have h := chooseBySrc_value_congr ps1 ev1 ps2 ev2 f (hps f) (hev f) (PRIORITY f)
        have h2 := getD_val_congr _ _ h
        simp [valOf, h2]
      · rw [if_neg hmem, if_neg hmem]


/-- C5 witness: both sources populate EmployeeName; the merge picks the
paystub item (even though its confidence 10 is far below EV's 80), and two
runs differing only in confidences select the same value. -/
theorem c5_priority_determinism_witness :
    List.lookup "EmployeeName" (merge_by_priority psNormA evNormA)
      = some ⟨PyVal.str "JOHN", some 10⟩
    ∧ valOf (List.lookup "EmployeeName" (merge_by_priority psNormA evNormA)) =
        valOf (List.lookup "EmployeeName" (merge_by_priority psNormB evNormB)) := by
  obtain ⟨h1, h2⟩ := c5_priority_determinism
  constructor
  · exact h1 psNormA evNormA "EmployeeName" ⟨PyVal.str "JOHN", some 10⟩
      (by decide) rfl rfl (by decide)
  · refine h2 psNormA evNormA psNormB evNormB ?_ ?_ "EmployeeName"
    · intro k
      by_cases h : k = "EmployeeName" <;> simp [psNormA, psNormB, valOf, h]
    · intro k
      by_cases h : k = "EmployeeName" <;> simp [evNormA, evNormB, valOf, h]

/-! ## Reading back a canonical date string -/

theorem digitChar_isDigit (n : Nat) (h : n < 10) : (digitChar n).isDigit = true := by
  interval_cases n <;> decide

theorem charVal_digitChar (n : Nat) (h : n < 10) : charVal (digitChar n) = n := by
  interval_cases n <;> decide

/-- A digit character is not any non-digit character. -/
theorem digitChar_ne (n : Nat) (h : n < 10) (c : Char) (hc : c.isDigit = false) :
    digitChar n ≠ c := by
  intro he
  have hd := digitChar_isDigit n h
  rw [he] at hd
  rw [hd] at hc
  exact absurd hc (by decide)

theorem pad2_all_digit (n : Nat) : (pad2 n).all Char.isDigit = true := by
  simp only [pad2, List.all_cons, List.all_nil, Bool.and_true]
  rw [digitChar_isDigit _ (Nat.mod_lt _ (by omega)),
    digitChar_isDigit _ (Nat.mod_lt _ (by omega))]
  rfl

theorem pad4_all_digit (n : Nat) : (pad4 n).all Char.isDigit = true := by
  simp only [pad4, List.all_cons, List.all_nil, Bool.and_true]
  rw [digitChar_isDigit _ (Nat.mod_lt _ (by omega)),
    digitChar_isDigit _ (Nat.mod_lt _ (by omega)),
    digitChar_isDigit _ (Nat.mod_lt _ (by omega)),
    digitChar_isDigit _ (Nat.mod_lt _ (by omega))]
  rfl

theorem digitsVal_pad2 (n : Nat) (h : n < 100) : digitsVal (pad2 n) = n := by
  simp only [pad2, digitsVal, List.foldl]
  rw [charVal_digitChar _ (Nat.mod_lt _ (by omega)),
    charVal_digitChar _ (Nat.mod_lt _ (by omega))]
  omega

theorem digitsVal_pad4 (n : Nat) (h : n < 10000) : digitsVal (pad4 n) = n := by
  simp only [pad4, digitsVal, List.foldl]
  rw [charVal_digitChar _ (Nat.mod_lt _ (by omega)),
    charVal_digitChar _ (Nat.mod_lt _ (by omega)),
    charVal_digitChar _ (Nat.mod_lt _ (by omega)),
    charVal_digitChar _ (Nat.mod_lt _ (by omega))]
  omega

theorem dash_not_mem_pad2 (n : Nat) : '-' ∉ pad2 n := by
  simp only [pad2, List.mem_cons, List.not_mem_nil, or_false]
  push_neg
  constructor
  · exact fun he => digitChar_ne _ (Nat.mod_lt _ (by omega)) '-' (by decide) he.symm
  · exact fun he => digitChar_ne _ (Nat.mod_lt _ (by omega)) '-' (by decide) he.symm

theorem dash_not_mem_pad4 (n : Nat) : '-' ∉ pad4 n := by
  simp only [pad4, List.mem_cons, List.not_mem_nil, or_false]
  push_neg
  refine ⟨?_, ?_, ?_, ?_⟩ <;>
    exact fun he => digitChar_ne _ (Nat.mod_lt _ (by omega)) '-' (by decide) he.symm

/-- Splitting on a separator that heads the tail. -/
theorem splitChar_append_sep (sep : Char) (a rest : List Char) (ha : sep ∉ a) :
    splitChar sep (a ++ sep :: rest) = a :: splitChar sep rest := by
  induction a with
  | nil =>
    have hred : splitChar sep ([] ++ sep :: rest) =
        if sep = sep then [] :: splitChar sep rest
        else
          match splitChar sep rest with
          | w :: ws => (sep :: w) :: ws
          | [] => [[sep]] := rfl
    rw [hred, if_pos rfl]
  | cons c a2 ih =>
    have hc : c ≠ sep := fun he => ha (by rw [he]; exact List.mem_cons_self _ _)
    have ha2 : sep ∉ a2 := fun hm => ha (List.mem_cons_of_mem _ hm)
    have hred : splitChar sep ((c :: a2) ++ sep :: rest) =
        if c = sep then [] :: splitChar sep (a2 ++ sep :: rest)
        else
          match splitChar sep (a2 ++ sep :: rest) with
          | w :: ws => (c :: w) :: ws
          | [] => [[c]] := rfl
    rw [hred, if_neg hc, ih ha2]

/-- Splitting a separator-free list. -/
theorem splitChar_no_sep (sep : Char) (a : List Char) (ha : sep ∉ a) :
    splitChar sep a = [a] := by
  induction a with
  | nil => rfl
  | cons c a2 ih =>
    have hc : c ≠ sep := fun he => ha (by rw [he]; exact List.mem_cons_self _ _)
    have ha2 : sep ∉ a2 := fun hm => ha (List.mem_cons_of_mem _ hm)
    have hred : splitChar sep (c :: a2) =
        if c = sep then [] :: splitChar sep a2
        else
          match splitChar sep a2 with
          | w :: ws => (c :: w) :: ws
          | [] => [[c]] := rfl
    rw [hred, if_neg hc, ih ha2]

/-- The `%Y-%m-%d` layout accepts exactly the string `strftime` produced,
recovering the same date. -/
theorem fmtYMD_fmtDate (y m d : Nat) (hy : y ≤ 9999) (hm1 : 1 ≤ m) (hm : m ≤ 12)
    (hd1 : 1 ≤ d) (hd : d ≤ 31) :
    fmtYMD (fmtDate y m d) = some (y, m, d) := by
  have hsplit : splitChar '-' (fmtDate y m d) = [pad4 y, pad2 m, pad2 d] := by
    unfold fmtDate
    rw [splitChar_append_sep '-' _ _ (dash_not_mem_pad4 y),
      splitChar_append_sep '-' _ _ (dash_not_mem_pad2 m),
      splitChar_no_sep '-' _ (dash_not_mem_pad2 d)]
  have h4 : year4Token (pad4 y) = some y := by
    unfold year4Token
    rw [if_pos ⟨rfl, pad4_all_digit y⟩, digitsVal_pad4 y (by omega)]
  have hmth : numToken 12 (pad2 m) = some m := by
    unfold numToken
    rw [if_pos ⟨Or.inr rfl, pad2_all_digit m⟩]
    rw [digitsVal_pad2 m (by omega)]
    rw [if_pos ⟨hm1, hm⟩]
  have hday : numToken 31 (pad2 d) = some d := by
    unfold numToken
    rw [if_pos ⟨Or.inr rfl, pad2_all_digit d⟩]
    rw [digitsVal_pad2 d (by omega)]
    rw [if_pos ⟨hd1, hd⟩]
  have hred : fmtYMD (fmtDate y m d) =
      match year4Token (pad4 y), numToken 12 (pad2 m), numToken 31 (pad2 d) with
      | some y2, some m2, some d2 => some (y2, m2, d2)
      | _, _, _ => Option.none := by
    unfold fmtYMD strpSplit3
    rw [hsplit]
  rw [hred, h4, hmth, hday]

/-- Months have at most 31 days. -/
theorem daysInMonth_le (y m : Nat) : daysInMonth y m ≤ 31 := by
  unfold daysInMonth
  by_cases h2 : m = 2
  · rw [if_pos h2]
    by_cases hl : isLeap y = true
    · rw [if_pos hl]
      omega
    · rw [if_neg hl]
      omega
  · rw [if_neg h2]
    by_cases h30 : (m = 4 || m = 6 || m = 9 || m = 11) = true
    · rw [if_pos h30]
      omega
    · rw [if_neg h30]

/-- The bounds packed in `validDate`. -/
theorem validDate_iff (y m d : Nat) :
    validDate y m d = true ↔
      (1 ≤ y ∧ y ≤ 9999 ∧ 1 ≤ m ∧ m ≤ 12 ∧ 1 ≤ d ∧ d ≤ daysInMonth y m) := by
  simp [validDate]

/-- A canonical date string read back through the `%Y-%m-%d` strptime path
denotes the same valid date. -/
theorem dateOfVal_fmtDate (y m d : Nat) (h : validDate y m d = true) :
    dateOfVal (PyVal.str (String.mk (fmtDate y m d))) = some (y, m, d) := by
  obtain ⟨h1, h2, h3, h4, h5, h6⟩ := (validDate_iff y m d).mp h
  have hne : String.mk (fmtDate y m d) ≠ "" := by
    intro hc
    have : fmtDate y m d = [] := by
      have := congrArg String.toList hc
      simpa using this
    unfold fmtDate pad4 at this
    simp at this
  have hfalsy : pyFalsy (PyVal.str (String.mk (fmtDate y m d))) = false := by
    simp [pyFalsy, hne]
  have hstep : dateOfVal (PyVal.str (String.mk (fmtDate y m d))) =
      match fmtYMD (fmtDate y m d) with
      | some (y2, m2, d2) =>
        if validDate y2 m2 d2 = true then some (y2, m2, d2) else Option.none
      | Option.none => Option.none := by
    unfold dateOfVal
    rw [hfalsy]
    rfl
  rw [hstep, fmtYMD_fmtDate y m d h2 h3 h4 h5 (le_trans h6 (daysInMonth_le y m))]
  exact if_pos h

/-! ## C4 and C10: the pay-frequency derivation -/

/-- The two lookups the derivation makes, resolved. -/
theorem derive_eval (ps_norm : String → Option FieldValue)
    (its ite : FieldValue) (y1 m1 d1 y2 m2 d2 : Nat)
    (hps : ps_norm "PayPeriodStartDate" = some its)
    (hsv : its.value = PyVal.str (String.mk (fmtDate y1 m1 d1)))
    (hv1 : validDate y1 m1 d1 = true)
    (hpe : ps_norm "PayPeriodEndDate" = some ite)
    (hev : ite.value = PyVal.str (String.mk (fmtDate y2 m2 d2)))
    (hv2 : validDate y2 m2 d2 = true) :
    derive_pay_frequency ps_norm =
      some ⟨PyVal.str (freqLabel ((jdn y2 m2 d2 : Int) - (jdn y1 m1 d1 : Int) + 1)),
        some 100⟩ := by
  have hvs : valueAt ps_norm "PayPeriodStartDate" = its.value := by
    unfold valueAt
    rw [hps]
  have hve : valueAt ps_norm "PayPeriodEndDate" = ite.value := by
    unfold valueAt
    rw [hpe]
  have hds : dateOfVal (valueAt ps_norm "PayPeriodStartDate") = some (y1, m1, d1) := by
    rw [hvs, hsv]
    exact dateOfVal_fmtDate y1 m1 d1 hv1
  have hde : dateOfVal (valueAt ps_norm "PayPeriodEndDate") = some (y2, m2, d2) := by
    rw [hve, hev]
    exact dateOfVal_fmtDate y2 m2 d2 hv2
  unfold derive_pay_frequency
  rw [hds, hde]

/-- The derivation yields nothing when a boundary value denotes no date. -/
theorem derive_none (ps_norm : String → Option FieldValue)
    (h : dateOfVal (valueAt ps_norm "PayPeriodStartDate") = Option.none ∨
      dateOfVal (valueAt ps_norm "PayPeriodEndDate") = Option.none) :
    derive_pay_frequency ps_norm = Option.none := by
  rcases h1 : dateOfVal (valueAt ps_norm "PayPeriodStartDate") with _ | ds
  · rcases h2 : dateOfVal (valueAt ps_norm "PayPeriodEndDate") with _ | de
    · unfold derive_pay_frequency
      rw [h1, h2]
    · unfold derive_pay_frequency
      rw [h1, h2]
  · rcases h2 : dateOfVal (valueAt ps_norm "PayPeriodEndDate") with _ | de
    · unfold derive_pay_frequency
      rw [h1, h2]
    · exfalso
      rcases h with h | h
      · rw [h1] at h
        exact absurd h (by simp)
      · rw [h2] at h
        exact absurd h (by simp)

/-- C4: when both normalized pay-period dates are valid canonical dates,
the derived pay frequency classifies the inclusive day count
`(end - start) + 1` exactly by the `≤8 / ≤15 / ≤20 / else` thresholds with
confidence exactly 100, and that is what the unified record holds; when
either boundary is absent or does not denote a valid `YYYY-MM-DD` date, no
derivation occurs and the unified PayFrequency is `{value: null,
confidence: null}` (totally, with no exception path). -/
theorem c4_pay_frequency_derivation :
    (∀ (ps_norm ev_norm : String → Option FieldValue)
       (its ite : FieldValue) (y1 m1 d1 y2 m2 d2 : Nat),
      ps_norm "PayPeriodStartDate" = some its →
      its.value = PyVal.str (String.mk (fmtDate y1 m1 d1)) →
      validDate y1 m1 d1 = true →
      ps_norm "PayPeriodEndDate" = some ite →
      ite.value = PyVal.str (String.mk (fmtDate y2 m2 d2)) →
      validDate y2 m2 d2 = true →
      derive_pay_frequency ps_norm =
        some ⟨PyVal.str
          (if (jdn y2 m2 d2 : Int) - (jdn y1 m1 d1 : Int) + 1 ≤ 8 then "Weekly"
           else if (jdn y2 m2 d2 : Int) - (jdn y1 m1 d1 : Int) + 1 ≤ 15 then "Bi-Weekly"
           else if (jdn y2 m2 d2 : Int) - (jdn y1 m1 d1 : Int) + 1 ≤ 20 then "Semi-Monthly"
           else "Monthly"), some 100⟩
      ∧ List.lookup "PayFrequency" (merge_by_priority ps_norm ev_norm) =
          some ⟨PyVal.str
            (if (jdn y2 m2 d2 : Int) - (jdn y1 m1 d1 : Int) + 1 ≤ 8 then "Weekly"
             else if (jdn y2 m2 d2 : Int) - (jdn y1 m1 d1 : Int) + 1 ≤ 15 then "Bi-Weekly"
             else if (jdn y2 m2 d2 : Int) - (jdn y1 m1 d1 : Int) + 1 ≤ 20 then "Semi-Monthly"
             else "Monthly"), some 100⟩)
    ∧ (∀ ps_norm ev_norm : String → Option FieldValue,
        dateOfVal (valueAt ps_norm "PayPeriodStartDate") = Option.none ∨
          dateOfVal (valueAt ps_norm "PayPeriodEndDate") = Option.none →
        derive_pay_frequency ps_norm = Option.none
        ∧ List.lookup "PayFrequency" (merge_by_priority ps_norm ev_norm) = some nullField) := by
  constructor
  · intro ps_norm ev_norm its ite y1 m1 d1 y2 m2 d2 hps hsv hv1 hpe hev hv2
    have hder := derive_eval ps_norm its ite y1 m1 d1 y2 m2 d2 hps hsv hv1 hpe hev hv2
    refine ⟨hder, ?_⟩
    rw [mergeLookup_payfreq, hder]
    rfl
  · intro ps_norm ev_norm h
    have hder := derive_none ps_norm h
    refine ⟨hder, ?_⟩
    rw [mergeLookup_payfreq, hder]
    rfl

/-- C4 witness: the derivation classifies the spec's boundary windows
(7-day → Weekly, exact 15-day → Bi-Weekly, 20-day → Semi-Monthly, 21-day →
Monthly), each also visible in the unified record, and a paystub set with
no dates leaves PayFrequency `{value: null, confidence: null}`. -/
theorem c4_pay_frequency_derivation_witness :
    derive_pay_frequency (fun k =>
        if k = "PayPeriodStartDate" then some ⟨PyVal.str "2024-01-01", some 90⟩
        else if k = "PayPeriodEndDate" then some ⟨PyVal.str "2024-01-07", some 91⟩
        else Option.none) = some ⟨PyVal.str "Weekly", some 100⟩
    ∧ derive_pay_frequency (fun k =>
        if k = "PayPeriodStartDate" then some ⟨PyVal.str "2024-01-01", some 90⟩
        else if k = "PayPeriodEndDate" then some ⟨PyVal.str "2024-01-15", some 91⟩
        else Option.none) = some ⟨PyVal.str "Bi-Weekly", some 100⟩
    ∧ derive_pay_frequency (fun k =>
        if k = "PayPeriodStartDate" then some ⟨PyVal.str "2024-01-01", some 90⟩
        else if k = "PayPeriodEndDate" then some ⟨PyVal.str "2024-01-20", some 91⟩
        else Option.none) = some ⟨PyVal.str "Semi-Monthly", some 100⟩
    ∧ List.lookup "PayFrequency" (merge_by_priority (fun k =>
        if k = "PayPeriodStartDate" then some ⟨PyVal.str "2024-01-01", some 90⟩
        else if k = "PayPeriodEndDate" then some ⟨PyVal.str "2024-01-21", some 91⟩
        else Option.none) emptyRaw) = some ⟨PyVal.str "Monthly", some 100⟩
    ∧ List.lookup "PayFrequency" (merge_by_priority emptyRaw emptyRaw) = some nullField := by
  obtain ⟨hmain, hnone⟩ := c4_pay_frequency_derivation
  refine ⟨?_, ?_, ?_, ?_, ?_⟩
  · exact (hmain _ emptyRaw ⟨PyVal.str "2024-01-01", some 90⟩ ⟨PyVal.str "2024-01-07", some 91⟩
      2024 1 1 2024 1 7 rfl (by decide) (by decide) rfl (by decide) (by decide)).1.trans
      (by decide)
  · exact (hmain _ emptyRaw ⟨PyVal.str "2024-01-01", some 90⟩ ⟨PyVal.str "2024-01-15", some 91⟩
      2024 1 1 2024 1 15 rfl (by decide) (by decide) rfl (by decide) (by decide)).1.trans
      (by decide)
  · exact (hmain _ emptyRaw ⟨PyVal.str "2024-01-01", some 90⟩ ⟨PyVal.str "2024-01-20", some 91⟩
      2024 1 1 2024 1 20 rfl (by decide) (by decide) rfl (by decide) (by decide)).1.trans
      (by decide)
  · exact (hmain _ emptyRaw ⟨PyVal.str "2024-01-01", some 90⟩ ⟨PyVal.str "2024-01-21", some 91⟩
      2024 1 1 2024 1 21 rfl (by decide) (by decide) rfl (by decide) (by decide)).2.trans
      (by decide)
  · exact (hnone emptyRaw emptyRaw (Or.inl (by decide))).2

/-- C10: a reversed pay-period range (end strictly before start, inclusive
day count at most zero) is not rejected: the derivation still classifies it
as "Weekly" with confidence 100, and that value appears as the unified
record's PayFrequency. -/
theorem c10_reversed_range_weekly
    (ps_norm ev_norm : String → Option FieldValue)
    (its ite : FieldValue) (y1 m1 d1 y2 m2 d2 : Nat)
    (hps : ps_norm "PayPeriodStartDate" = some its)
    (hsv : its.value = PyVal.str (String.mk (fmtDate y1 m1 d1)))
    (hv1 : validDate y1 m1 d1 = true)
    (hpe : ps_norm "PayPeriodEndDate" = some ite)
    (hev : ite.value = PyVal.str (String.mk (fmtDate y2 m2 d2)))
    (hv2 : validDate y2 m2 d2 = true)
    (hlt : (jdn y2 m2 d2 : Int) < (jdn y1 m1 d1 : Int)) :
    derive_pay_frequency ps_norm = some ⟨PyVal.str "Weekly", some 100⟩
    ∧ List.lookup "PayFrequency" (merge_by_priority ps_norm ev_norm)
        = some ⟨PyVal.str "Weekly", some 100⟩ := by
  have hder := derive_eval ps_norm its ite y1 m1 d1 y2 m2 d2 hps hsv hv1 hpe hev hv2
  have hlab : freqLabel ((jdn y2 m2 d2 : Int) - (jdn y1 m1 d1 : Int) + 1) = "Weekly" := by
    unfold freqLabel
    rw [if_pos (by omega : (jdn y2 m2 d2 : Int) - (jdn y1 m1 d1 : Int) + 1 ≤ 8)]
  rw [hlab] at hder
  refine ⟨hder, ?_⟩
  rw [mergeLookup_payfreq, hder]
  rfl

/-- C10 witness: a range running backwards by a week still derives
"Weekly". -/
theorem c10_reversed_range_weekly_witness :
    derive_pay_frequency (fun k =>
        if k = "PayPeriodStartDate" then some ⟨PyVal.str "2024-01-10", some 90⟩
        else if k = "PayPeriodEndDate" then some ⟨PyVal.str "2024-01-03", some 91⟩
        else Option.none) = some ⟨PyVal.str "Weekly", some 100⟩ := by
  exact (c10_reversed_range_weekly _ emptyRaw
    ⟨PyVal.str "2024-01-10", some 90⟩ ⟨PyVal.str "2024-01-03", some 91⟩
    2024 1 10 2024 1 3 rfl (by decide) (by decide) rfl (by decide) (by decide)
    (by decide)).1

/-! ## C7: the date parser -/

/-- C7: the fixed layouts map "03/15/2024" and "15-Mar-2024" to
"2024-03-15"; any input whose whitespace-normalized form is shorter than 6
characters (such as "11") is absent; when no fixed layout matches, the 1–4
digit runs are extracted in order and, when at least three exist, the first
three are read as month, day, year (2000 added to a year run that is not
4 digits long — in particular to a 2-digit year), and an invalid calendar
date yields absent (the `datetime` constructor's exception is swallowed). -/
theorem c7_parse_date :
    parse_date (PyVal.str "03/15/2024") = some "2024-03-15"
    ∧ parse_date (PyVal.str "15-Mar-2024") = some "2024-03-15"
    ∧ parse_date (PyVal.str "11") = Option.none
    ∧ (∀ s : String, (pySquash s.toList).length < 6 →
        parse_date (PyVal.str s) = Option.none)
    ∧ (∀ (s : String) (r0 r1 r2 : List Char) (rest : List (List Char)),
        pyFalsy (PyVal.str s) = false →
        ¬(pySquash s.toList = [] ∨ (pySquash s.toList).length < 6) →
        tryFormats strpFormats (pySquash s.toList) = Option.none →
        digitChunks (pySquash s.toList) = r0 :: r1 :: r2 :: rest →
        parse_date (PyVal.str s) =
          mkDateStr (if r2.length = 4 then digitsVal r2 else 2000 + digitsVal r2)
            (digitsVal r0) (digitsVal r1))
    ∧ (∀ y m d : Nat, validDate y m d = false → mkDateStr y m d = Option.none) := by
  refine ⟨by decide, by decide, by decide, ?_, ?_, ?_⟩
  · intro s h
    unfold parse_date
    by_cases hf : pyFalsy (PyVal.str s) = true
    · rw [if_pos hf]
    · rw [if_neg hf]
      have hlist : pyValStr (PyVal.str s) = s.toList := rfl
      rw [hlist, if_pos (Or.inr h)]
  · intro s r0 r1 r2 rest hf hlen htry hchunks
    unfold parse_date
    have hlist : pyValStr (PyVal.str s) = s.toList := rfl
    rw [if_neg (by rw [hf]; exact Bool.false_ne_true), hlist, if_neg hlen, htry, hchunks]
  · intro y m d h
    unfold mkDateStr
    rw [h]
    rfl

/-- C7 witness: the short-guard and fallback clauses applied concretely:
"11" squashes to 2 characters; "3 15 24 x" misses every fixed layout and
its digit runs give March 15, 2024 (2-digit year gets 2000 added); "13 45
2024" builds month 13 which `datetime` rejects, giving absent. -/
theorem c7_parse_date_witness :
    parse_date (PyVal.str " 11 ") = Option.none
    ∧ parse_date (PyVal.str "3 15 24 x") = some "2024-03-15"
    ∧ parse_date (PyVal.str "13 45 2024") = Option.none
    ∧ mkDateStr 2024 13 45 = Option.none := by
  obtain ⟨_, _, _, hshort, hfall, hinvalid⟩ := c7_parse_date
  refine ⟨?_, ?_, ?_, hinvalid 2024 13 45 (by decide)⟩
  · exact hshort " 11 " (by decide)
  · exact (hfall "3 15 24 x" ['3'] ['1', '5'] ['2', '4'] [['x']].tail (by decide)
      (by decide) (by decide) (by decide)).trans (by decide)
  · exact (hfall "13 45 2024" ['1', '3'] ['4', '5'] ['2', '0', '2', '4'] []
      (by decide) (by decide) (by decide) (by decide)).trans (by decide)

/-! ## C8: prefix stripping -/

/-- C8 counterexample: with no prefix matching (here: the empty candidate
list), `strip_prefix` does not return the input unchanged — it left-strips
it first. -/
theorem c8_strip_prefix_counterexample :
    strip_prefix (some " hello") [] = some "hello"
    ∧ (" hello" : String) ≠ "hello" := by
  exact ⟨by decide, by decide⟩

/-- The loop over candidates when nothing matches. -/
theorem stripPrefixLoop_no_match (txt : List Char) (prefixes : List String)
    (h : ∀ p ∈ prefixes,
      ¬((lowerChars p.toList).isPrefixOf (lowerChars txt)) = true) :
    stripPrefixLoop txt prefixes = txt := by
  induction prefixes with
  | nil => rfl
  | cons p ps ih =>
    unfold stripPrefixLoop
    rw [if_neg (h p (List.mem_cons_self _ _))]
    exact ih (fun q hq => h q (List.mem_cons_of_mem _ hq))

/-- The loop over candidates at the first match. -/
theorem stripPrefixLoop_match (txt : List Char) (pre post : List String) (p : String)
    (hpre : ∀ q ∈ pre, ¬((lowerChars q.toList).isPrefixOf (lowerChars txt)) = true)
    (hp : (lowerChars p.toList).isPrefixOf (lowerChars txt) = true) :
    stripPrefixLoop txt (pre ++ p :: post) =
      (txt.drop p.length).dropWhile pyIsSpace := by
  induction pre with
  | nil =>
    rw [List.nil_append]
    unfold stripPrefixLoop
    rw [if_pos hp]
  | cons q qs ih =>
    rw [List.cons_append]
    unfold stripPrefixLoop
    rw [if_neg (hpre q (List.mem_cons_self _ _))]
    exact ih (fun r hr => hpre r (List.mem_cons_of_mem _ hr))

/-- C8 (amended): for a nonempty input whose left-trimmed form has no
case-insensitive matching prefix, `strip_prefix` returns the input *with
its leading whitespace removed* (not unchanged); when some prefix matches
the left-trimmed input, the first match is removed together with any
following whitespace; an empty or absent input yields absent. -/
theorem c8_strip_prefix_behavior :
    (∀ (s : String) (prefixes : List String),
      s ≠ "" →
      (∀ p ∈ prefixes, ¬((lowerChars p.toList).isPrefixOf
          (lowerChars (s.toList.dropWhile pyIsSpace))) = true) →
      strip_prefix (some s) prefixes
        = some (String.mk (s.toList.dropWhile pyIsSpace)))
    ∧ (∀ (s : String) (pre post : List String) (p : String),
      s ≠ "" →
      (∀ q ∈ pre, ¬((lowerChars q.toList).isPrefixOf
          (lowerChars (s.toList.dropWhile pyIsSpace))) = true) →
      (lowerChars p.toList).isPrefixOf
          (lowerChars (s.toList.dropWhile pyIsSpace)) = true →
      strip_prefix (some s) (pre ++ p :: post)
        = some (String.mk
            (((s.toList.dropWhile pyIsSpace).drop p.length).dropWhile pyIsSpace)))
    ∧ (∀ prefixes : List String, strip_prefix Option.none prefixes = Option.none
        ∧ strip_prefix (some "") prefixes = Option.none) := by
  have hred : ∀ (s : String) (prefixes : List String),
      strip_prefix (some s) prefixes =
        if s = "" then Option.none
        else some (String.mk (stripPrefixLoop (s.toList.dropWhile pyIsSpace) prefixes)) :=
    fun s prefixes => rfl
  refine ⟨?_, ?_, ?_⟩
  · intro s prefixes hs h
    rw [hred, if_neg hs, stripPrefixLoop_no_match _ _ h]
  · intro s pre post p hs hpre hp
    rw [hred, if_neg hs, stripPrefixLoop_match _ _ _ _ hpre hp]
  · intro prefixes
    exact ⟨rfl, by rw [hred, if_pos rfl]⟩

/-- C8 witness: no candidate matches "hello" so only the leading space is
dropped; "Reason:" matches "Reason: left job" and is removed with the
following space. -/
theorem c8_strip_prefix_behavior_witness :
    strip_prefix (some " hello") ["Reason:"] = some "hello"
    ∧ strip_prefix (some "Reason: left job") (([] : List String) ++ "Reason:" :: [])
        = some "left job"
    ∧ strip_prefix Option.none ["Reason:"] = Option.none
    ∧ strip_prefix (some "") ["Reason:"] = Option.none := by
  obtain ⟨hno, hyes, hnil⟩ := c8_strip_prefix_behavior
  refine ⟨?_, ?_, (hnil _).1, (hnil _).2⟩
  · exact (hno " hello" ["Reason:"] (by decide) (by decide)).trans (by decide)
  · exact (hyes "Reason: left job" [] [] "Reason:" (by decide) (by simp) (by decide)).trans
      (by decide)

/-! ## C9 stage 1: words / squash round trips -/

/-- Reduction: a leading whitespace character is skipped. -/
theorem pyWords_cons_space (c : Char) (cs : List Char) (hc : pyIsSpace c = true) :
    pyWords (c :: cs) = pyWords cs := by
  have h0 : pyWords (c :: cs) =
      if pyIsSpace c = true then pyWords cs
      else
        match cs, pyWords cs with
        | [], _ => [[c]]
        | c2 :: _, ws =>
          if pyIsSpace c2 = true then [c] :: ws
          else
            match ws with
            | w :: rest => (c :: w) :: rest
            | [] => [[c]] := rfl
  rw [h0, if_pos hc]

/-- Reduction: a single non-whitespace character is one word. -/
theorem pyWords_singleton (c : Char) (hc : pyIsSpace c = false) :
    pyWords [c] = [[c]] := by
  have h0 : pyWords [c] =
      if pyIsSpace c = true then pyWords ([] : List Char) else [[c]] := rfl
  rw [h0, if_neg (by rw [hc]; exact Bool.false_ne_true)]

/-- Reduction: a word boundary after the head character. -/
theorem pyWords_cons_cons (c c2 : Char) (r : List Char) (hc : pyIsSpace c = false) :
    pyWords (c :: c2 :: r) =
      if pyIsSpace c2 = true then [c] :: pyWords (c2 :: r)
      else
        match pyWords (c2 :: r) with
        | w :: rest => (c :: w) :: rest
        | [] => [[c]] := by
  have h0 : pyWords (c :: c2 :: r) =
      if pyIsSpace c = true then pyWords (c2 :: r)
      else
        if pyIsSpace c2 = true then [c] :: pyWords (c2 :: r)
        else
          match pyWords (c2 :: r) with
          | w :: rest => (c :: w) :: rest
          | [] => [[c]] := rfl
  rw [h0, if_neg (by rw [hc]; exact Bool.false_ne_true)]

/-- A one-character word is nonempty and whitespace-free. -/
theorem single_word_good (c : Char) (hcf : pyIsSpace c = false) :
    ([c] ≠ ([] : List Char)) ∧ ∀ x ∈ [c], pyIsSpace x = false := by
  refine ⟨by simp, ?_⟩
  intro x hx
  have hx2 : x = c := by simpa using hx
  rw [hx2]
  exact hcf

/-- A list containing a non-whitespace character splits into at least one
word. -/
theorem pyWords_ne_nil : ∀ (cs : List Char) (c : Char),
    c ∈ cs → pyIsSpace c = false → pyWords cs ≠ []
  | [], c, hc, _ => absurd hc (by simp)
  | x :: xs, c, hc, hns => by
    by_cases hx : pyIsSpace x = true
    · rw [pyWords_cons_space x xs hx]
      have hcx : c ≠ x := by
        intro he
        rw [he, hx] at hns
        exact absurd hns (by decide)
      have hmem : c ∈ xs := by
        rcases List.mem_cons.mp hc with hc2 | hc2
        · exact absurd hc2 hcx
        · exact hc2
      exact pyWords_ne_nil xs c hmem hns
    · have hx2 : pyIsSpace x = false := by
        simpa using hx
      rcases xs with _ | ⟨c2, r⟩
      · rw [pyWords_singleton x hx2]
        simp
      · rw [pyWords_cons_cons x c2 r hx2]
        by_cases hc2 : pyIsSpace c2 = true
        · rw [if_pos hc2]
          simp
        · rw [if_neg hc2]
          rcases hys : pyWords (c2 :: r) with _ | ⟨w0, ws0⟩
          · simp
          · simp

/-- Words produced by `pyWords` are nonempty and whitespace-free. -/
theorem pyWords_words : ∀ cs : List Char, ∀ w ∈ pyWords cs,
    w ≠ [] ∧ ∀ c ∈ w, pyIsSpace c = false
  | [], w, hw => absurd hw (by simp [pyWords])
  | c :: cs, w, hw => by
    by_cases hc : pyIsSpace c = true
    · rw [pyWords_cons_space c cs hc] at hw
      exact pyWords_words cs w hw
    · have hcf : pyIsSpace c = false := by
        simpa using hc
      rcases cs with _ | ⟨c2, r⟩
      · rw [pyWords_singleton c hcf] at hw
        have hw2 : w = [c] := by simpa using hw
        rw [hw2]
        exact single_word_good c hcf
      · rw [pyWords_cons_cons c c2 r hcf] at hw
        by_cases hc2 : pyIsSpace c2 = true
        · rw [if_pos hc2] at hw
          rcases List.mem_cons.mp hw with hw2 | hw2
          · rw [hw2]
            exact single_word_good c hcf
          · exact pyWords_words (c2 :: r) w hw2
        · rw [if_neg hc2] at hw
          rcases hys : pyWords (c2 :: r) with _ | ⟨w0, ws0⟩
          · rw [hys] at hw
            have hw2 : w = [c] := by simpa using hw
            rw [hw2]
            exact single_word_good c hcf
          · rw [hys] at hw
            have hgood := pyWords_words (c2 :: r)
            rcases List.mem_cons.mp hw with hw2 | hw2
            · have h0 := hgood w0 (by rw [hys]; exact List.mem_cons_self _ _)
              rw [hw2]
              refine ⟨by simp, ?_⟩
              intro x hx
              rcases List.mem_cons.mp hx with hx2 | hx2
              · rw [hx2]
                exact hcf
              · exact h0.2 x hx2
            · exact hgood w (by rw [hys]; exact List.mem_cons_of_mem _ hw2)

theorem intercalate_singleton (x : Char) (w : List Char) :
    List.intercalate [x] [w] = w := by
  simp [List.intercalate]

theorem intercalate_cons2 (x : Char) (w w2 : List Char) (rest : List (List Char)) :
    List.intercalate [x] (w :: w2 :: rest) = w ++ x :: List.intercalate [x] (w2 :: rest) := by
  simp [List.intercalate, List.intersperse]

/-- A whitespace-free nonempty word splits to itself. -/
theorem pyWords_word : ∀ w : List Char, w ≠ [] → (∀ c ∈ w, pyIsSpace c = false) →
    pyWords w = [w]
  | [], h, _ => absurd rfl h
  | [c], _, hall => pyWords_singleton c (hall c (List.mem_cons_self _ _))
  | c :: c2 :: rest, _, hall => by
    have hc : pyIsSpace c = false := hall c (List.mem_cons_self _ _)
    have hc2 : pyIsSpace c2 = false := hall c2 (List.mem_cons_of_mem _ (List.mem_cons_self _ _))
    rw [pyWords_cons_cons c c2 rest hc, if_neg (by rw [hc2]; exact Bool.false_ne_true)]
    rw [pyWords_word (c2 :: rest) (by simp)
      (fun x hx => hall x (List.mem_cons_of_mem _ hx))]

/-- Splitting a word followed by a space and arbitrary text. -/
theorem pyWords_word_append : ∀ (w t : List Char), w ≠ [] →
    (∀ c ∈ w, pyIsSpace c = false) →
    pyWords (w ++ ' ' :: t) = w :: pyWords t
  | [], _, h, _ => absurd rfl h
  | [c], t, _, hall => by
    have hc : pyIsSpace c = false := hall c (List.mem_cons_self _ _)
    rw [List.cons_append, List.nil_append, pyWords_cons_cons c ' ' t hc,
      if_pos (by decide), pyWords_cons_space ' ' t (by decide)]
  | c :: c2 :: rest, t, _, hall => by
    have hc : pyIsSpace c = false := hall c (List.mem_cons_self _ _)
    have hc2 : pyIsSpace c2 = false := hall c2 (List.mem_cons_of_mem _ (List.mem_cons_self _ _))
    have hrec := pyWords_word_append (c2 :: rest) t (by simp)
      (fun x hx => hall x (List.mem_cons_of_mem _ hx))
    simp only [List.cons_append] at hrec ⊢
    rw [pyWords_cons_cons c c2 (rest ++ ' ' :: t) hc,
      if_neg (by rw [hc2]; exact Bool.false_ne_true), hrec]

/-- Splitting is a retraction of joining with single spaces, for nonempty
whitespace-free words. -/
theorem pyWords_intercalate : ∀ ws : List (List Char),
    (∀ w ∈ ws, w ≠ [] ∧ ∀ c ∈ w, pyIsSpace c = false) →
    pyWords (List.intercalate [' '] ws) = ws
  | [], _ => rfl
  | [w], hgood => by
    have h := hgood w (List.mem_cons_self _ _)
    rw [intercalate_singleton, pyWords_word w h.1 h.2]
  | w :: w2 :: rest, hgood => by
    have h := hgood w (List.mem_cons_self _ _)
    rw [intercalate_cons2, pyWords_word_append w _ h.1 h.2,
      pyWords_intercalate (w2 :: rest) (fun x hx => hgood x (List.mem_cons_of_mem _ hx))]

/-- Squashing is idempotent at the normalizer level: re-squashing a squash
result is the identity. -/
theorem squash_spaces_idem (v : PyVal) :
    squash_spaces (optToVal (squash_spaces v)) = squash_spaces v := by
  rcases hv : squash_spaces v with _ | t
  · rfl
  · unfold squash_spaces at hv
    by_cases hf : pyFalsy v = true
    · rw [if_pos hf] at hv
      exact absurd hv (by simp)
    · rw [if_neg hf] at hv
      by_cases hout : pySquash (pyValStr v) = []
      · rw [if_pos hout] at hv
        exact absurd hv (by simp)
      · rw [if_neg hout] at hv
        have ht : t = String.mk (pySquash (pyValStr v)) := by
          have := hv
          simp at this
          exact this.symm
        have htoList : t.toList = pySquash (pyValStr v) := by
          rw [ht]
          rfl
        have htne : t ≠ "" := by
          rw [ht]
          intro hc
          apply hout
          have := congrArg String.toList hc
          simpa using this
        have hsquash2 : pySquash t.toList = t.toList := by
          rw [htoList]
          unfold pySquash
          rw [pyWords_intercalate (pyWords (pyValStr v)) (pyWords_words (pyValStr v))]
        show squash_spaces (PyVal.str t) = some t
        unfold squash_spaces
        rw [if_neg (by simp [pyFalsy, htne])]
        have hne2 : pySquash (pyValStr (PyVal.str t)) ≠ [] := by
          show pySquash t.toList ≠ []
          rw [hsquash2, htoList]
          exact hout
        rw [if_neg hne2]
        show some (String.mk (pySquash t.toList)) = some t
        rw [hsquash2]
        rfl

/-! ## C9 stage 2: two-character replacement patterns -/


theorem pairsOf_cons2 (c c2 : Char) (rest : List Char) :
    pairsOf (c :: c2 :: rest) = (c, c2) :: pairsOf (c2 :: rest) := rfl

theorem pairsOf_tail_sub (x : Char) (l : List Char) :
    ∀ p ∈ pairsOf l, p ∈ pairsOf (x :: l) := by
  rcases l with _ | ⟨y, l2⟩
  · intro p hp
    exact absurd hp (by simp [pairsOf])
  · intro p hp
    rw [pairsOf_cons2]
    exact List.mem_cons_of_mem _ hp

theorem repl2_cons2 (a b k c c2 : Char) (rest : List Char) :
    repl2 a b k (c :: c2 :: rest) =
      if c = a ∧ c2 = b then k :: repl2 a b k rest
      else c :: repl2 a b k (c2 :: rest) := rfl

theorem repl2_ne_nil (a b k : Char) : ∀ s : List Char, s ≠ [] → repl2 a b k s ≠ []
  | [], h, _ => absurd rfl h
  | [c], _, hc => by
    exact absurd hc (by simp [repl2])
  | c :: c2 :: rest, _, hc => by
    rw [repl2_cons2] at hc
    by_cases hm : c = a ∧ c2 = b
    · rw [if_pos hm] at hc
      exact absurd hc (by simp)
    · rw [if_neg hm] at hc
      exact absurd hc (by simp)

theorem repl2_head (a b k : Char) : ∀ s : List Char,
    (repl2 a b k s).head? = s.head? ∨
      (s.head? = some a ∧ (repl2 a b k s).head? = some k)
  | [] => Or.inl rfl
  | [c] => Or.inl rfl
  | c :: c2 :: rest => by
    rw [repl2_cons2]
    by_cases hm : c = a ∧ c2 = b
    · rw [if_pos hm]
      refine Or.inr ⟨?_, rfl⟩
      rw [hm.1]
      rfl
    · rw [if_neg hm]
      exact Or.inl rfl

theorem repl2_mem (a b k : Char) : ∀ s : List Char, ∀ c ∈ repl2 a b k s, c ∈ s ∨ c = k
  | [], c, hc => absurd hc (by simp [repl2])
  | [x], c, hc => by
    have : c = x := by simpa [repl2] using hc
    exact Or.inl (by rw [this]; exact List.mem_cons_self _ _)
  | x :: x2 :: rest, c, hc => by
    rw [repl2_cons2] at hc
    by_cases hm : x = a ∧ x2 = b
    · rw [if_pos hm] at hc
      rcases List.mem_cons.mp hc with hc2 | hc2
      · exact Or.inr hc2
      · rcases repl2_mem a b k rest c hc2 with h | h
        · exact Or.inl (List.mem_cons_of_mem _ (List.mem_cons_of_mem _ h))
        · exact Or.inr h
    · rw [if_neg hm] at hc
      rcases List.mem_cons.mp hc with hc2 | hc2
      · exact Or.inl (by rw [hc2]; exact List.mem_cons_self _ _)
      · rcases repl2_mem a b k (x2 :: rest) c hc2 with h | h
        · exact Or.inl (List.mem_cons_of_mem _ h)
        · exact Or.inr h

theorem repl2_getLast (a b k : Char) : ∀ s : List Char,
    (repl2 a b k s).getLast? = s.getLast? ∨ (repl2 a b k s).getLast? = some k
  | [] => Or.inl rfl
  | [c] => Or.inl rfl
  | c :: c2 :: rest => by
    rw [repl2_cons2]
    by_cases hm : c = a ∧ c2 = b
    · rw [if_pos hm]
      rcases hrest : rest with _ | ⟨r1, l2⟩
      · exact Or.inr rfl
      · have hne : repl2 a b k (r1 :: l2) ≠ [] := repl2_ne_nil a b k _ (by simp)
        have hlast : (k :: repl2 a b k (r1 :: l2)).getLast? =
            (repl2 a b k (r1 :: l2)).getLast? := by
          rcases he : repl2 a b k (r1 :: l2) with _ | ⟨z, zs⟩
          · exact absurd he hne
          · simp [List.getLast?_cons_cons]
        rw [hlast]
        rcases repl2_getLast a b k (r1 :: l2) with h | h
        · left
          rw [h]
          have : (c :: c2 :: r1 :: l2).getLast? = (r1 :: l2).getLast? := by
            simp [List.getLast?_cons_cons]
          rw [this]
        · exact Or.inr h
    · rw [if_neg hm]
      have hne : repl2 a b k (c2 :: rest) ≠ [] := repl2_ne_nil a b k _ (by simp)
      have hlast : (c :: repl2 a b k (c2 :: rest)).getLast? =
          (repl2 a b k (c2 :: rest)).getLast? := by
        rcases he : repl2 a b k (c2 :: rest) with _ | ⟨z, zs⟩
        · exact absurd he hne
        · simp [List.getLast?_cons_cons]
      rw [hlast]
      rcases repl2_getLast a b k (c2 :: rest) with h | h
      · left
        rw [h]
        simp [List.getLast?_cons_cons]
      · exact Or.inr h

/-- With no occurrence of the pattern, the replacement is the identity. -/
theorem repl2_id (a b k : Char) : ∀ s : List Char,
    (a, b) ∉ pairsOf s → repl2 a b k s = s
  | [], _ => rfl
  | [c], _ => rfl
  | c :: c2 :: rest, hnp => by
    rw [pairsOf_cons2] at hnp
    have hhead : (c, c2) ≠ (a, b) := fun he => hnp (by rw [he]; exact List.mem_cons_self _ _)
    have hm : ¬(c = a ∧ c2 = b) := by
      intro hc
      exact hhead (by rw [hc.1, hc.2])
    rw [repl2_cons2, if_neg hm,
      repl2_id a b k (c2 :: rest) (fun hp => hnp (List.mem_cons_of_mem _ hp))]

/-- The head of the non-nil output of `repl2`, related to the input. -/
theorem repl2_head_cases (a b k : Char) (s : List Char) (x : Char) (l : List Char)
    (h : repl2 a b k s = x :: l) (r1 : Char) (l2 : List Char) (hs : s = r1 :: l2) :
    x = r1 ∨ (r1 = a ∧ x = k) := by
  rcases repl2_head a b k s with hh | hh
  · rw [h, hs] at hh
    left
    simpa using hh
  · rw [h, hs] at hh
    right
    refine ⟨by simpa using hh.1, by simpa using hh.2⟩

/-- Pair creation for a replacement keeping the pattern's first character:
every pair of the output is a pair of the input or starts with `a`. -/
theorem repl2_pairs_keepA (a b : Char) : ∀ s : List Char,
    ∀ p ∈ pairsOf (repl2 a b a s), p ∈ pairsOf s ∨ p.1 = a
  | [], p, hp => absurd hp (by simp [repl2, pairsOf])
  | [c], p, hp => absurd hp (by simp [repl2, pairsOf])
  | c :: c2 :: rest, p, hp => by
    rw [repl2_cons2] at hp
    by_cases hm : c = a ∧ c2 = b
    · rw [if_pos hm] at hp
      rcases ht : repl2 a b a rest with _ | ⟨x, l⟩
      · rw [ht] at hp
        exact absurd hp (by simp [pairsOf])
      · rw [ht, pairsOf_cons2] at hp
        rcases List.mem_cons.mp hp with hp2 | hp2
        · right
          rw [hp2]
        · rw [← ht] at hp2
          rcases repl2_pairs_keepA a b rest p hp2 with h | h
          · exact Or.inl (pairsOf_tail_sub c _ p (pairsOf_tail_sub c2 _ p h))
          · exact Or.inr h
    · rw [if_neg hm] at hp
      rcases ht : repl2 a b a (c2 :: rest) with _ | ⟨x, l⟩
      · exact absurd ht (repl2_ne_nil a b a _ (by simp))
      · rw [ht, pairsOf_cons2] at hp
        rcases List.mem_cons.mp hp with hp2 | hp2
        · rcases repl2_head_cases a b a _ x l ht c2 rest rfl with hx | hx
          · left
            rw [hp2, hx, pairsOf_cons2]
            exact List.mem_cons_self _ _
          · left
            rw [hp2, hx.2, ← hx.1, pairsOf_cons2]
            exact List.mem_cons_self _ _
        · rw [← ht] at hp2
          rcases repl2_pairs_keepA a b (c2 :: rest) p hp2 with h | h
          · exact Or.inl (pairsOf_tail_sub c _ p h)
          · exact Or.inr h

/-- Pair creation for a replacement keeping the pattern's second character:
every pair of the output is a pair of the input or ends with `b`. -/
theorem repl2_pairs_keepB (a b : Char) : ∀ s : List Char,
    ∀ p ∈ pairsOf (repl2 a b b s), p ∈ pairsOf s ∨ p.2 = b
  | [], p, hp => absurd hp (by simp [repl2, pairsOf])
  | [c], p, hp => absurd hp (by simp [repl2, pairsOf])
  | c :: c2 :: rest, p, hp => by
    rw [repl2_cons2] at hp
    by_cases hm : c = a ∧ c2 = b
    · rw [if_pos hm] at hp
      rcases ht : repl2 a b b rest with _ | ⟨x, l⟩
      · rw [ht] at hp
        exact absurd hp (by simp [pairsOf])
      · rw [ht, pairsOf_cons2] at hp
        rcases List.mem_cons.mp hp with hp2 | hp2
        · rcases hrest : rest with _ | ⟨r1, l2⟩
          · subst hrest
            exact absurd ht (by simp [repl2])
          · subst hrest
            rcases repl2_head_cases a b b (r1 :: l2) x l ht r1 l2 rfl with hx | hx
            · left
              rw [hp2, hx]
              apply pairsOf_tail_sub
              rw [hm.2, pairsOf_cons2]
              exact List.mem_cons_self _ _
            · right
              rw [hp2, hx.2]
        · rw [← ht] at hp2
          rcases repl2_pairs_keepB a b rest p hp2 with h | h
          · exact Or.inl (pairsOf_tail_sub c _ p (pairsOf_tail_sub c2 _ p h))
          · exact Or.inr h
    · rw [if_neg hm] at hp
      rcases ht : repl2 a b b (c2 :: rest) with _ | ⟨x, l⟩
      · exact absurd ht (repl2_ne_nil a b b _ (by simp))
      · rw [ht, pairsOf_cons2] at hp
        rcases List.mem_cons.mp hp with hp2 | hp2
        · rcases repl2_head_cases a b b _ x l ht c2 rest rfl with hx | hx
          · left
            rw [hp2, hx, pairsOf_cons2]
            exact List.mem_cons_self _ _
          · right
            rw [hp2, hx.2]
        · rw [← ht] at hp2
          rcases repl2_pairs_keepB a b (c2 :: rest) p hp2 with h | h
          · exact Or.inl (pairsOf_tail_sub c _ p h)
          · exact Or.inr h

/-- Elimination for a replacement keeping the first character: if the input
has no `(b, b)` pair, the output has no `(a, b)` pair. -/
theorem repl2_elim_keepA (a b : Char) (hab : a ≠ b) : ∀ s : List Char,
    (b, b) ∉ pairsOf s → (a, b) ∉ pairsOf (repl2 a b a s)
  | [], _, hp => absurd hp (by simp [repl2, pairsOf])
  | [c], _, hp => absurd hp (by simp [repl2, pairsOf])
  | c :: c2 :: rest, hbb, hp => by
    rw [repl2_cons2] at hp
    by_cases hm : c = a ∧ c2 = b
    · rw [if_pos hm] at hp
      rcases ht : repl2 a b a rest with _ | ⟨x, l⟩
      · rw [ht] at hp
        exact absurd hp (by simp [pairsOf])
      · rw [ht, pairsOf_cons2] at hp
        rcases List.mem_cons.mp hp with hp2 | hp2
        · have hx : x = b := by
            have := congrArg Prod.snd hp2
            simpa using this.symm
          rcases hrest : rest with _ | ⟨r1, l2⟩
          · subst hrest
            exact absurd ht (by simp [repl2])
          · subst hrest
            rcases repl2_head_cases a b a (r1 :: l2) x l ht r1 l2 rfl with hx2 | hx2
            · apply hbb
              apply pairsOf_tail_sub
              rw [hm.2, pairsOf_cons2, ← hx2, hx]
              exact List.mem_cons_self _ _
            · exact absurd (hx2.2.symm.trans hx) hab
        · rw [← ht] at hp2
          exact repl2_elim_keepA a b hab rest
            (fun hc => hbb (pairsOf_tail_sub c _ _ (pairsOf_tail_sub c2 _ _ hc))) hp2
    · rw [if_neg hm] at hp
      rcases ht : repl2 a b a (c2 :: rest) with _ | ⟨x, l⟩
      · exact absurd ht (repl2_ne_nil a b a _ (by simp))
      · rw [ht, pairsOf_cons2] at hp
        rcases List.mem_cons.mp hp with hp2 | hp2
        · have hc : c = a := by
            have := congrArg Prod.fst hp2
            simpa using this.symm
          have hx : x = b := by
            have := congrArg Prod.snd hp2
            simpa using this.symm
          rcases repl2_head_cases a b a _ x l ht c2 rest rfl with hx2 | hx2
          · exact hm ⟨hc, by rw [← hx2, hx]⟩
          · exact absurd (hx2.2.symm.trans hx) hab
        · rw [← ht] at hp2
          exact repl2_elim_keepA a b hab (c2 :: rest)
            (fun hc => hbb (pairsOf_tail_sub c _ _ hc)) hp2

/-- Elimination for a replacement keeping the second character: if the
input has no `(a, a)` pair, the output has no `(a, b)` pair. -/
theorem repl2_elim_keepB (a b : Char) (hab : a ≠ b) : ∀ s : List Char,
    (a, a) ∉ pairsOf s → (a, b) ∉ pairsOf (repl2 a b b s)
  | [], _, hp => absurd hp (by simp [repl2, pairsOf])
  | [c], _, hp => absurd hp (by simp [repl2, pairsOf])
  | c :: c2 :: rest, haa, hp => by
    rw [repl2_cons2] at hp
    by_cases hm : c = a ∧ c2 = b
    · rw [if_pos hm] at hp
      rcases ht : repl2 a b b rest with _ | ⟨x, l⟩
      · rw [ht] at hp
        exact absurd hp (by simp [pairsOf])
      · rw [ht, pairsOf_cons2] at hp
        rcases List.mem_cons.mp hp with hp2 | hp2
        · have hbx : b = a := by
            have := congrArg Prod.fst hp2
            simpa using this.symm
          exact absurd hbx.symm hab
        · rw [← ht] at hp2
          exact repl2_elim_keepB a b hab rest
            (fun hc => haa (pairsOf_tail_sub c _ _ (pairsOf_tail_sub c2 _ _ hc))) hp2
    · rw [if_neg hm] at hp
      rcases ht : repl2 a b b (c2 :: rest) with _ | ⟨x, l⟩
      · exact absurd ht (repl2_ne_nil a b b _ (by simp))
      · rw [ht, pairsOf_cons2] at hp
        rcases List.mem_cons.mp hp with hp2 | hp2
        · have hc : c = a := by
            have := congrArg Prod.fst hp2
            simpa using this.symm
          have hx : x = b := by
            have := congrArg Prod.snd hp2
            simpa using this.symm
          rcases repl2_head_cases a b b _ x l ht c2 rest rfl with hx2 | hx2
          · exact hm ⟨hc, by rw [← hx2, hx]⟩
          · apply haa
            rw [hc, hx2.1, pairsOf_cons2]
            exact List.mem_cons_self _ _
        · rw [← ht] at hp2
          exact repl2_elim_keepB a b hab (c2 :: rest)
            (fun hc => haa (pairsOf_tail_sub c _ _ hc)) hp2

/-! ## C9 stage 3: the squashed-string invariant -/

theorem pairsOf_fst_mem : ∀ (u : List Char) (p : Char × Char), p ∈ pairsOf u → p.1 ∈ u
  | [], p, hp => absurd hp (by simp [pairsOf])
  | [c], p, hp => absurd hp (by simp [pairsOf])
  | c :: c2 :: rest, p, hp => by
    rw [pairsOf_cons2] at hp
    rcases List.mem_cons.mp hp with hp2 | hp2
    · rw [hp2]
      exact List.mem_cons_self _ _
    · exact List.mem_cons_of_mem _ (pairsOf_fst_mem (c2 :: rest) p hp2)

theorem pairsOf_snd_mem : ∀ (u : List Char) (p : Char × Char), p ∈ pairsOf u → p.2 ∈ u
  | [], p, hp => absurd hp (by simp [pairsOf])
  | [c], p, hp => absurd hp (by simp [pairsOf])
  | c :: c2 :: rest, p, hp => by
    rw [pairsOf_cons2] at hp
    rcases List.mem_cons.mp hp with hp2 | hp2
    · rw [hp2]
      exact List.mem_cons_of_mem _ (List.mem_cons_self _ _)
    · exact List.mem_cons_of_mem _ (pairsOf_snd_mem (c2 :: rest) p hp2)

theorem head?_mem {u : List Char} {c : Char} (h : u.head? = some c) : c ∈ u := by
  rcases u with _ | ⟨x, l⟩
  · exact absurd h (by simp)
  · have : x = c := by simpa using h
    rw [← this]
    exact List.mem_cons_self _ _


theorem Sq_of_no_ws (u : List Char) (hne : u ≠ [])
    (hws : ∀ c ∈ u, pyIsSpace c = false) : Sq u := by
  refine ⟨hne, ?_, ?_, ?_, ?_⟩
  · intro c hc
    exact hws c (head?_mem hc)
  · intro c hc
    exact hws c (List.mem_of_getLast?_eq_some hc)
  · intro hp
    have := hws ' ' (pairsOf_fst_mem u _ hp)
    exact absurd this (by decide)
  · intro c hc hspace
    rw [hws c hc] at hspace
    exact absurd hspace (by decide)

/-- Joining nonempty words with single spaces yields a nonempty list. -/
theorem intercalate_ne_nil (w : List Char) (ws : List (List Char)) (hw : w ≠ []) :
    List.intercalate [' '] (w :: ws) ≠ [] := by
  rcases ws with _ | ⟨w2, rest⟩
  · rw [intercalate_singleton]
    exact hw
  · rw [intercalate_cons2]
    simp [hw]

theorem intercalate_head (x : Char) (w : List Char) (ws : List (List Char)) (hw : w ≠ []) :
    (List.intercalate [x] (w :: ws)).head? = w.head? := by
  rcases ws with _ | ⟨w2, rest⟩
  · rw [intercalate_singleton]
  · rw [intercalate_cons2]
    rcases w with _ | ⟨c, l⟩
    · exact absurd rfl hw
    · simp

/-- Decomposing the pairs of an append. -/
theorem pairsOf_append : ∀ (u v : List Char), u ≠ [] →
    ∀ p ∈ pairsOf (u ++ v),
      p ∈ pairsOf u ∨ (u.getLast? = some p.1 ∧ v.head? = some p.2) ∨ p ∈ pairsOf v
  | [], _, hu, _, _ => absurd rfl hu
  | [x], v, _, p, hp => by
    rcases v with _ | ⟨y, l⟩
    · simp only [List.append_nil] at hp
      exact Or.inl hp
    · rw [List.cons_append, List.nil_append, pairsOf_cons2] at hp
      rcases List.mem_cons.mp hp with hp2 | hp2
      · right
        left
        rw [hp2]
        exact ⟨rfl, rfl⟩
      · exact Or.inr (Or.inr hp2)
  | x :: x2 :: u2, v, _, p, hp => by
    rw [List.cons_append] at hp
    have hp0 : p ∈ pairsOf (x :: ((x2 :: u2) ++ v)) := hp
    rw [show (x2 :: u2) ++ v = x2 :: (u2 ++ v) from rfl, pairsOf_cons2] at hp0
    rcases List.mem_cons.mp hp0 with hp2 | hp2
    · left
      rw [hp2, pairsOf_cons2]
      exact List.mem_cons_self _ _
    · have hrec := pairsOf_append (x2 :: u2) v (by simp) p (by
        rw [show (x2 :: u2) ++ v = x2 :: (u2 ++ v) from rfl]
        exact hp2)
      rcases hrec with h | h | h
      · exact Or.inl (pairsOf_tail_sub x _ p h)
      · right
        left
        refine ⟨?_, h.2⟩
        rw [List.getLast?_cons_cons]
        exact h.1
      · exact Or.inr (Or.inr h)

/-- Characters of a single-space join come from a word or are the space. -/
theorem mem_intercalate : ∀ (ws : List (List Char)) (c : Char),
    c ∈ List.intercalate [' '] ws → (∃ w ∈ ws, c ∈ w) ∨ c = ' '
  | [], c, hc => absurd hc (by simp [List.intercalate])
  | [w], c, hc => by
    rw [intercalate_singleton] at hc
    exact Or.inl ⟨w, List.mem_cons_self _ _, hc⟩
  | w :: w2 :: rest, c, hc => by
    rw [intercalate_cons2] at hc
    rcases List.mem_append.mp hc with h | h
    · exact Or.inl ⟨w, List.mem_cons_self _ _, h⟩
    · rcases List.mem_cons.mp h with h2 | h2
      · exact Or.inr h2
      · rcases mem_intercalate (w2 :: rest) c h2 with ⟨w3, hw3, hcw⟩ | h3
        · exact Or.inl ⟨w3, List.mem_cons_of_mem _ hw3, hcw⟩
        · exact Or.inr h3

/-- The last character of a single-space join of good words is
non-whitespace. -/
theorem intercalate_last : ∀ ws : List (List Char),
    (∀ w ∈ ws, w ≠ [] ∧ ∀ c ∈ w, pyIsSpace c = false) →
    ∀ c, (List.intercalate [' '] ws).getLast? = some c → pyIsSpace c = false
  | [], _, c, hc => absurd hc (by simp [List.intercalate])
  | [w], hgood, c, hc => by
    rw [intercalate_singleton] at hc
    exact (hgood w (List.mem_cons_self _ _)).2 c (List.mem_of_getLast?_eq_some hc)
  | w :: w2 :: rest, hgood, c, hc => by
    rw [intercalate_cons2, List.getLast?_append] at hc
    have hne : List.intercalate [' '] (w2 :: rest) ≠ [] :=
      intercalate_ne_nil w2 rest (hgood w2 (List.mem_cons_of_mem _ (List.mem_cons_self _ _))).1
    have hlast : (' ' :: List.intercalate [' '] (w2 :: rest)).getLast? =
        (List.intercalate [' '] (w2 :: rest)).getLast? := by
      rcases he : List.intercalate [' '] (w2 :: rest) with _ | ⟨z, zs⟩
      · exact absurd he hne
      · simp [List.getLast?_cons_cons]
    rw [hlast] at hc
    rcases ho : (List.intercalate [' '] (w2 :: rest)).getLast? with _ | z
    · exact absurd (List.getLast?_eq_none_iff.mp ho) hne
    · rw [ho] at hc
      have hcz : c = z := by simpa using hc.symm
      rw [hcz]
      exact intercalate_last (w2 :: rest)
        (fun x hx => hgood x (List.mem_cons_of_mem _ hx)) z ho

theorem intercalate_cons_head (x c : Char) (w : List Char) (ws : List (List Char)) :
    List.intercalate [x] ((c :: w) :: ws) = c :: List.intercalate [x] (w :: ws) := by
  rcases ws with _ | ⟨w2, rest⟩
  · rw [intercalate_singleton, intercalate_singleton]
  · rw [intercalate_cons2, intercalate_cons2, List.cons_append]

/-- In a single-space join of good words, no pair has two whitespace
components. -/
theorem intercalate_pairs : ∀ ws : List (List Char),
    (∀ w ∈ ws, w ≠ [] ∧ ∀ c ∈ w, pyIsSpace c = false) →
    ∀ p ∈ pairsOf (List.intercalate [' '] ws),
      pyIsSpace p.1 = false ∨ pyIsSpace p.2 = false
  | [], _, p, hp => absurd hp (by simp [List.intercalate, pairsOf])
  | [w], hgood, p, hp => by
    rw [intercalate_singleton] at hp
    exact Or.inl ((hgood w (List.mem_cons_self _ _)).2 p.1 (pairsOf_fst_mem w p hp))
  | w :: w2 :: rest, hgood, p, hp => by
    rw [intercalate_cons2] at hp
    have hw := hgood w (List.mem_cons_self _ _)
    have hw2 := hgood w2 (List.mem_cons_of_mem _ (List.mem_cons_self _ _))
    rcases pairsOf_append w (' ' :: List.intercalate [' '] (w2 :: rest)) hw.1 p hp
      with h | h | h
    · exact Or.inl (hw.2 p.1 (pairsOf_fst_mem w p h))
    · exact Or.inl (hw.2 p.1 (List.mem_of_getLast?_eq_some h.1))
    · have hne : List.intercalate [' '] (w2 :: rest) ≠ [] :=
        intercalate_ne_nil w2 rest hw2.1
      rcases hI : List.intercalate [' '] (w2 :: rest) with _ | ⟨z, zs⟩
      · exact absurd hI hne
      · rw [hI, pairsOf_cons2] at h
        rcases List.mem_cons.mp h with h2 | h2
        · right
          have hz : (List.intercalate [' '] (w2 :: rest)).head? = some z := by
            rw [hI]
            rfl
          rw [intercalate_head ' ' w2 rest hw2.1] at hz
          have hsnd : p.2 = z := by
            rw [h2]
          rw [hsnd]
          exact hw2.2 z (head?_mem hz)
        · exact intercalate_pairs (w2 :: rest)
            (fun x hx => hgood x (List.mem_cons_of_mem _ hx)) p (by rw [hI]; exact h2)

/-- An empty split means every character was whitespace. -/
theorem pyWords_nil : ∀ cs : List Char, pyWords cs = [] → ∀ c ∈ cs, pyIsSpace c = true
  | [], _, c, hc => absurd hc (by simp)
  | x :: xs, h, c, hc => by
    by_cases hx : pyIsSpace x = true
    · rw [pyWords_cons_space x xs hx] at h
      rcases List.mem_cons.mp hc with hc2 | hc2
      · rw [hc2]
        exact hx
      · exact pyWords_nil xs h c hc2
    · have hx2 : pyIsSpace x = false := by simpa using hx
      exact absurd h (pyWords_ne_nil (x :: xs) x (List.mem_cons_self _ _) hx2)

/-- An empty squash means every character was whitespace. -/
theorem pySquash_nil_all_ws (cs : List Char) (h : pySquash cs = []) :
    ∀ c ∈ cs, pyIsSpace c = true := by
  apply pyWords_nil
  rcases hws : pyWords cs with _ | ⟨w, ws⟩
  · rfl
  · exfalso
    have hne := intercalate_ne_nil w ws
      (pyWords_words cs w (by rw [hws]; exact List.mem_cons_self _ _)).1
    apply hne
    unfold pySquash at h
    rw [hws] at h
    exact h

/-- A nonempty squash output satisfies the squashed-string invariant. -/
theorem Sq_pySquash (cs : List Char) (h : pySquash cs ≠ []) : Sq (pySquash cs) := by
  have hgood := pyWords_words cs
  rcases hws : pyWords cs with _ | ⟨w, ws⟩
  · exact absurd (by unfold pySquash; rw [hws]; rfl) h
  · have hgood2 : ∀ x ∈ w :: ws, x ≠ [] ∧ ∀ c ∈ x, pyIsSpace c = false := by
      intro x hx
      exact hgood x (by rw [hws]; exact hx)
    unfold pySquash
    rw [hws]
    refine ⟨?_, ?_, ?_, ?_, ?_⟩
    · exact intercalate_ne_nil w ws (hgood2 w (List.mem_cons_self _ _)).1
    · intro c hc
      rw [intercalate_head ' ' w ws (hgood2 w (List.mem_cons_self _ _)).1] at hc
      exact (hgood2 w (List.mem_cons_self _ _)).2 c (head?_mem hc)
    · exact intercalate_last (w :: ws) hgood2
    · intro hp
      rcases intercalate_pairs (w :: ws) hgood2 (' ', ' ') hp with h2 | h2
      · exact absurd h2 (by decide)
      · exact absurd h2 (by decide)
    · intro c hc hcs
      rcases mem_intercalate (w :: ws) c hc with ⟨x, hx, hcx⟩ | h2
      · have h1 := (hgood2 x hx).2 c hcx
        rw [h1] at hcs
        exact absurd hcs (by decide)
      · exact h2

/-- Joining the split of a squashed string restores it. -/
theorem pySquash_of_Sq : ∀ u : List Char, Sq u → List.intercalate [' '] (pyWords u) = u
  | [], h => absurd rfl h.1
  | [c], h => by
    have hc : pyIsSpace c = false := h.2.1 c rfl
    rw [pyWords_singleton c hc, intercalate_singleton]
  | [c, c2], h => by
    have hc : pyIsSpace c = false := h.2.1 c rfl
    by_cases hc2 : pyIsSpace c2 = true
    · exfalso
      have hlast : [c, c2].getLast? = some c2 := by
        simp [List.getLast?_cons_cons]
      have := h.2.2.1 c2 hlast
      rw [this] at hc2
      exact absurd hc2 (by decide)
    · have hc2f : pyIsSpace c2 = false := by simpa using hc2
      rw [pyWords_cons_cons c c2 [] hc, if_neg hc2, pyWords_singleton c2 hc2f,
        intercalate_singleton]
  | c :: c2 :: d :: r2, h => by
    obtain ⟨-, hhead, hlast, hnd, hws⟩ := h
    have hc : pyIsSpace c = false := hhead c rfl
    by_cases hc2 : pyIsSpace c2 = true
    · have hc2sp : c2 = ' ' :=
        hws c2 (List.mem_cons_of_mem _ (List.mem_cons_self _ _)) hc2
      subst hc2sp
      have hdpair : (' ', d) ∈ pairsOf (c :: ' ' :: d :: r2) := by
        rw [pairsOf_cons2]
        exact List.mem_cons_of_mem _ (by rw [pairsOf_cons2]; exact List.mem_cons_self _ _)
      have hd : pyIsSpace d = false := by
        by_cases hdc : pyIsSpace d = true
        · have hdsp : d = ' ' :=
            hws d (List.mem_cons_of_mem _ (List.mem_cons_of_mem _ (List.mem_cons_self _ _))) hdc
          subst hdsp
          exact absurd hdpair hnd
        · simpa using hdc
      have hSqr : Sq (d :: r2) := by
        refine ⟨by simp, ?_, ?_, ?_, ?_⟩
        · intro e he
          have : d = e := by simpa using he
          rw [← this]
          exact hd
        · intro e he
          apply hlast e
          rw [List.getLast?_cons_cons, List.getLast?_cons_cons]
          exact he
        · intro hp
          exact hnd (pairsOf_tail_sub c _ _ (pairsOf_tail_sub ' ' _ _ hp))
        · intro e he hsp
          exact hws e (List.mem_cons_of_mem _ (List.mem_cons_of_mem _ he)) hsp
      have hih := pySquash_of_Sq (d :: r2) hSqr
      rw [pyWords_cons_cons c ' ' (d :: r2) hc, if_pos (by decide),
        pyWords_cons_space ' ' (d :: r2) (by decide)]
      rcases hpw : pyWords (d :: r2) with _ | ⟨w0, ws0⟩
      · exact absurd hpw (pyWords_ne_nil (d :: r2) d (List.mem_cons_self _ _) hd)
      · rw [hpw] at hih
        rw [intercalate_cons2, hih]
        rfl
    · have hc2f : pyIsSpace c2 = false := by simpa using hc2
      have hSqr : Sq (c2 :: d :: r2) := by
        refine ⟨by simp, ?_, ?_, ?_, ?_⟩
        · intro e he
          have : c2 = e := by simpa using he
          rw [← this]
          exact hc2f
        · intro e he
          apply hlast e
          rw [List.getLast?_cons_cons]
          exact he
        · intro hp
          exact hnd (pairsOf_tail_sub c _ _ hp)
        · intro e he hsp
          exact hws e (List.mem_cons_of_mem _ he) hsp
      have hih := pySquash_of_Sq (c2 :: d :: r2) hSqr
      rw [pyWords_cons_cons c c2 (d :: r2) hc, if_neg hc2]
      rcases hpw : pyWords (c2 :: d :: r2) with _ | ⟨w0, ws0⟩
      · exact absurd hpw (pyWords_ne_nil (c2 :: d :: r2) c2 (List.mem_cons_self _ _) hc2f)
      · rw [hpw] at hih
        rw [intercalate_cons_head, hih]

/-! ## Character-case arithmetic (for `str.lower`/`str.capitalize`) -/

theorem toNat_ofNat_valid (n : Nat) (h : n < 55296) : (Char.ofNat n).toNat = n := by
  rw [Char.ofNat, dif_pos (Or.inl h : Nat.isValidChar n)]
  rfl

theorem pyIsSpace_eq_false_of_toNat (c : Char) (h : 33 ≤ c.toNat) :
    pyIsSpace c = false := by
  have h1 : c ≠ ' ' := fun he => by rw [he] at h; exact absurd h (by decide)
  have h2 : c ≠ '\t' := fun he => by rw [he] at h; exact absurd h (by decide)
  have h3 : c ≠ '\n' := fun he => by rw [he] at h; exact absurd h (by decide)
  have h4 : c ≠ '\r' := fun he => by rw [he] at h; exact absurd h (by decide)
  have h5 : c ≠ '\x0b' := fun he => by rw [he] at h; exact absurd h (by decide)
  have h6 : c ≠ '\x0c' := fun he => by rw [he] at h; exact absurd h (by decide)
  simp [pyIsSpace, h1, h2, h3, h4, h5, h6]

theorem toLower_eq (c : Char) :
    c.toLower = if c.toNat ≥ 65 ∧ c.toNat ≤ 90 then Char.ofNat (c.toNat + 32) else c := rfl

theorem toUpper_eq (c : Char) :
    c.toUpper = if c.toNat ≥ 97 ∧ c.toNat ≤ 122 then Char.ofNat (c.toNat - 32) else c := rfl

theorem pyIsSpace_toLower (c : Char) (h : pyIsSpace c = false) :
    pyIsSpace c.toLower = false := by
  rw [toLower_eq]
  by_cases hc : c.toNat ≥ 65 ∧ c.toNat ≤ 90
  · rw [if_pos hc]
    apply pyIsSpace_eq_false_of_toNat
    rw [toNat_ofNat_valid (c.toNat + 32) (by omega)]
    omega
  · rw [if_neg hc]
    exact h

theorem pyIsSpace_toUpper (c : Char) (h : pyIsSpace c = false) :
    pyIsSpace c.toUpper = false := by
  rw [toUpper_eq]
  by_cases hc : c.toNat ≥ 97 ∧ c.toNat ≤ 122
  · rw [if_pos hc]
    apply pyIsSpace_eq_false_of_toNat
    rw [toNat_ofNat_valid (c.toNat - 32) (by omega)]
    omega
  · rw [if_neg hc]
    exact h

theorem toUpper_toUpper (c : Char) : c.toUpper.toUpper = c.toUpper := by
  by_cases hc : c.toNat ≥ 97 ∧ c.toNat ≤ 122
  · have h1 : c.toUpper = Char.ofNat (c.toNat - 32) := by
      rw [toUpper_eq, if_pos hc]
    have h2 : c.toUpper.toNat = c.toNat - 32 := by
      rw [h1, toNat_ofNat_valid (c.toNat - 32) (by omega)]
    rw [toUpper_eq c.toUpper, if_neg (by omega)]
  · have h1 : c.toUpper = c := by
      rw [toUpper_eq, if_neg hc]
    rw [h1]
    exact h1

theorem toLower_toLower (c : Char) : c.toLower.toLower = c.toLower := by
  by_cases hc : c.toNat ≥ 65 ∧ c.toNat ≤ 90
  · have h1 : c.toLower = Char.ofNat (c.toNat + 32) := by
      rw [toLower_eq, if_pos hc]
    have h2 : c.toLower.toNat = c.toNat + 32 := by
      rw [h1, toNat_ofNat_valid (c.toNat + 32) (by omega)]
    rw [toLower_eq c.toLower, if_neg (by omega)]
  · have h1 : c.toLower = c := by
      rw [toLower_eq, if_neg hc]
    rw [h1]
    exact h1

/-! ## C9: `clean_money` is a fixed point on its own squashed outputs -/

theorem pair_absent_keepA (a b : Char) (p : Char × Char) (hp1 : p.1 ≠ a)
    (s : List Char) (habs : p ∉ pairsOf s) : p ∉ pairsOf (repl2 a b a s) := by
  intro hc
  rcases repl2_pairs_keepA a b s p hc with h | h
  · exact habs h
  · exact hp1 h

theorem pair_absent_keepB (a b : Char) (p : Char × Char) (hp2 : p.2 ≠ b)
    (s : List Char) (habs : p ∉ pairsOf s) : p ∉ pairsOf (repl2 a b b s) := by
  intro hc
  rcases repl2_pairs_keepB a b s p hc with h | h
  · exact habs h
  · exact hp2 h

/-- The invariant survives a replacement whose replacement character is
non-whitespace, as long as new pairs always carry that character. -/
theorem Sq_repl2 (a b k : Char) (hk : pyIsSpace k = false) (s : List Char)
    (hs : Sq s)
    (hpair : ∀ p ∈ pairsOf (repl2 a b k s), p ∈ pairsOf s ∨ p.1 = k ∨ p.2 = k) :
    Sq (repl2 a b k s) := by
  obtain ⟨hne, hhead, hlast, hnd, hws⟩ := hs
  refine ⟨repl2_ne_nil a b k s hne, ?_, ?_, ?_, ?_⟩
  · intro c hc
    rcases repl2_head a b k s with hh | hh
    · rw [hh] at hc
      exact hhead c hc
    · rw [hh.2] at hc
      have : k = c := by simpa using hc
      rw [← this]
      exact hk
  · intro c hc
    rcases repl2_getLast a b k s with hh | hh
    · rw [hh] at hc
      exact hlast c hc
    · rw [hh] at hc
      have : k = c := by simpa using hc
      rw [← this]
      exact hk
  · intro hp
    rcases hpair (' ', ' ') hp with h | h | h
    · exact hnd h
    · rw [← h] at hk
      exact absurd hk (by decide)
    · rw [← h] at hk
      exact absurd hk (by decide)
  · intro c hc hsp
    rcases repl2_mem a b k s c hc with h | h
    · exact hws c h hsp
    · rw [h] at hsp
      rw [hsp] at hk
      exact absurd hk (by decide)

/-- The squashed-string invariant survives all five replacements of
`clean_money`. -/
theorem moneyRepl_Sq (s : List Char) (hs : Sq s) : Sq (moneyRepl s) := by
  unfold moneyRepl
  apply Sq_repl2 '$' ' ' '$' (by decide) _
    (Sq_repl2 ' ' ',' ',' (by decide) _
      (Sq_repl2 '.' ' ' '.' (by decide) _
        (Sq_repl2 ' ' '.' '.' (by decide) _
          (Sq_repl2 ',' ' ' ',' (by decide) _ hs
            (fun p hp => (repl2_pairs_keepA ',' ' ' _ p hp).imp id Or.inl))
          (fun p hp => (repl2_pairs_keepB ' ' '.' _ p hp).imp id Or.inr))
        (fun p hp => (repl2_pairs_keepA '.' ' ' _ p hp).imp id Or.inl))
      (fun p hp => (repl2_pairs_keepB ' ' ',' _ p hp).imp id Or.inr))
    (fun p hp => (repl2_pairs_keepA '$' ' ' _ p hp).imp id Or.inl)

/-- After one pass of the five replacements over a string with no double
space, none of the five patterns remains, so a second pass is the
identity. -/
theorem moneyRepl_idem_of_nd (s : List Char) (hnd : (' ', ' ') ∉ pairsOf s) :
    moneyRepl (moneyRepl s) = moneyRepl s := by
  have hnd1 : (' ', ' ') ∉ pairsOf (repl2 ',' ' ' ',' s) :=
    pair_absent_keepA ',' ' ' (' ', ' ') (by decide) s hnd
  have hnd2 : (' ', ' ') ∉ pairsOf (repl2 ' ' '.' '.' (repl2 ',' ' ' ',' s)) :=
    pair_absent_keepB ' ' '.' (' ', ' ') (by decide) _ hnd1
  have hnd3 : (' ', ' ') ∉
      pairsOf (repl2 '.' ' ' '.' (repl2 ' ' '.' '.' (repl2 ',' ' ' ',' s))) :=
    pair_absent_keepA '.' ' ' (' ', ' ') (by decide) _ hnd2
  have hnd4 : (' ', ' ') ∉ pairsOf (repl2 ' ' ',' ','
      (repl2 '.' ' ' '.' (repl2 ' ' '.' '.' (repl2 ',' ' ' ',' s)))) :=
    pair_absent_keepB ' ' ',' (' ', ' ') (by decide) _ hnd3
  have hp1 : (',', ' ') ∉ pairsOf (moneyRepl s) := by
    unfold moneyRepl
    exact pair_absent_keepA '$' ' ' _ (by decide) _
      (pair_absent_keepB ' ' ',' _ (by decide) _
        (pair_absent_keepA '.' ' ' _ (by decide) _
          (pair_absent_keepB ' ' '.' _ (by decide) _
            (repl2_elim_keepA ',' ' ' (by decide) s hnd))))
  have hp2 : (' ', '.') ∉ pairsOf (moneyRepl s) := by
    unfold moneyRepl
    exact pair_absent_keepA '$' ' ' _ (by decide) _
      (pair_absent_keepB ' ' ',' _ (by decide) _
        (pair_absent_keepA '.' ' ' _ (by decide) _
          (repl2_elim_keepB ' ' '.' (by decide) _ hnd1)))
  have hp3 : ('.', ' ') ∉ pairsOf (moneyRepl s) := by
    unfold moneyRepl
    exact pair_absent_keepA '$' ' ' _ (by decide) _
      (pair_absent_keepB ' ' ',' _ (by decide) _
        (repl2_elim_keepA '.' ' ' (by decide) _ hnd2))
  have hp4 : (' ', ',') ∉ pairsOf (moneyRepl s) := by
    unfold moneyRepl
    exact pair_absent_keepA '$' ' ' _ (by decide) _
      (repl2_elim_keepB ' ' ',' (by decide) _ hnd3)
  have hp5 : ('$', ' ') ∉ pairsOf (moneyRepl s) := by
    unfold moneyRepl
    exact repl2_elim_keepA '$' ' ' (by decide) _ hnd4
  unfold moneyRepl at hp1 hp2 hp3 hp4 hp5
  show moneyRepl (moneyRepl s) = moneyRepl s
  unfold moneyRepl
  rw [repl2_id ',' ' ' ',' _ hp1, repl2_id ' ' '.' '.' _ hp2,
    repl2_id '.' ' ' '.' _ hp3, repl2_id ' ' ',' ',' _ hp4,
    repl2_id '$' ' ' '$' _ hp5]

/-- On an all-whitespace string none of the five patterns occurs, so the
replacements are the identity. -/
theorem moneyRepl_id_of_ws (s : List Char) (hall : ∀ c ∈ s, pyIsSpace c = true) :
    moneyRepl s = s := by
  have habsA : ∀ (a b : Char), pyIsSpace a = false → (a, b) ∉ pairsOf s := by
    intro a b ha hp
    have := hall a (pairsOf_fst_mem s (a, b) hp)
    rw [this] at ha
    exact absurd ha (by decide)
  have habsB : ∀ (a b : Char), pyIsSpace b = false → (a, b) ∉ pairsOf s := by
    intro a b hb hp
    have := hall b (pairsOf_snd_mem s (a, b) hp)
    rw [this] at hb
    exact absurd hb (by decide)
  unfold moneyRepl
  rw [repl2_id ',' ' ' ',' s (habsA ',' ' ' (by decide)),
    repl2_id ' ' '.' '.' s (habsB ' ' '.' (by decide)),
    repl2_id '.' ' ' '.' s (habsA '.' ' ' (by decide)),
    repl2_id ' ' ',' ',' s (habsB ' ' ',' (by decide)),
    repl2_id '$' ' ' '$' s (habsA '$' ' ' (by decide))]

/-- `clean_money` is idempotent at the normalizer level. -/
theorem clean_money_idem (v : PyVal) :
    clean_money (optToVal (clean_money v)) = clean_money v := by
  rcases hv : clean_money v with _ | t
  · rfl
  · unfold clean_money at hv
    by_cases hf : pyFalsy v = true
    · rw [if_pos hf] at hv
      exact absurd hv (by simp)
    · rw [if_neg hf] at hv
      rcases hsq : squash_spaces v with _ | u
      · rw [hsq] at hv
        rcases hval : v with _ | s | q
        · rw [hval] at hf
          exact absurd rfl hf
        · rw [hval] at hv hsq hf
          have hs : s ≠ "" := by
            intro he
            apply hf
            simp [pyFalsy, he]
          have hnil : pySquash s.toList = [] := by
            unfold squash_spaces at hsq
            rw [if_neg (by simpa [pyFalsy] using hf)] at hsq
            by_cases ho : pySquash (pyValStr (PyVal.str s)) = []
            · exact ho
            · rw [if_neg ho] at hsq
              exact absurd hsq (by simp)
          have hall : ∀ c ∈ s.toList, pyIsSpace c = true :=
            pySquash_nil_all_ws s.toList hnil
          have hmid : moneyRepl s.toList = s.toList := moneyRepl_id_of_ws s.toList hall
          have ht : t = s := by
            have := hv
            simp only [hmid] at this
            have h2 : some (String.mk s.toList) = some t := this
            have h3 : String.mk s.toList = t := by simpa using h2
            rw [← h3]
            rfl
          subst ht
          show clean_money (PyVal.str t) = some t
          unfold clean_money
          rw [if_neg (by simpa [pyFalsy] using hf)]
          have hsq2 : squash_spaces (PyVal.str t) = Option.none := hsq
          rw [hsq2]
          show some (String.mk (moneyRepl t.toList)) = some t
          rw [hmid]
          rfl
        · rw [hval] at hv
          exact absurd hv (by simp)
      · rw [hsq] at hv
        have hu : u.toList = pySquash (pyValStr v) ∧ pySquash (pyValStr v) ≠ [] := by
          unfold squash_spaces at hsq
          rw [if_neg hf] at hsq
          by_cases ho : pySquash (pyValStr v) = []
          · rw [if_pos ho] at hsq
            exact absurd hsq (by simp)
          · rw [if_neg ho] at hsq
            have : String.mk (pySquash (pyValStr v)) = u := by simpa using hsq
            exact ⟨by rw [← this]; rfl, ho⟩
        have hSq : Sq u.toList := by
          rw [hu.1]
          exact Sq_pySquash (pyValStr v) hu.2
        have hSqm : Sq (moneyRepl u.toList) := moneyRepl_Sq u.toList hSq
        have ht : t = String.mk (moneyRepl u.toList) := by simpa using hv.symm
        have htoList : t.toList = moneyRepl u.toList := by
          rw [ht]
          rfl
        have htne : t ≠ "" := by
          intro he
          apply hSqm.1
          have := congrArg String.toList he
          rw [htoList] at this
          simpa using this
        show clean_money (PyVal.str t) = some t
        unfold clean_money
        rw [if_neg (by simpa [pyFalsy] using htne)]
        have hsq3 : pySquash (pyValStr (PyVal.str t)) = t.toList := by
          show pySquash t.toList = t.toList
          rw [htoList]
          exact pySquash_of_Sq (moneyRepl u.toList) hSqm
        have hsqs : squash_spaces (PyVal.str t) = some t := by
          unfold squash_spaces
          rw [if_neg (by simpa [pyFalsy] using htne)]
          rw [hsq3, if_neg (by rw [htoList]; exact hSqm.1)]
          rfl
        rw [hsqs]
        show some (String.mk (moneyRepl t.toList)) = some t
        rw [htoList, moneyRepl_idem_of_nd u.toList hSq.2.2.2.1, ht]

/-! ## C9: `titlecase_job` is a fixed point on its own outputs, except for
whitespace-only strings -/


/-- Unpacking a successful `squash_spaces`. -/
theorem squash_spaces_some (v : PyVal) (u : String) (h : squash_spaces v = some u) :
    u.toList = pySquash (pyValStr v) ∧ pySquash (pyValStr v) ≠ [] ∧ pyFalsy v = false := by
  unfold squash_spaces at h
  by_cases hf : pyFalsy v = true
  · rw [if_pos hf] at h
    exact absurd h (by simp)
  · rw [if_neg hf] at h
    by_cases ho : pySquash (pyValStr v) = []
    · rw [if_pos ho] at h
      exact absurd h (by simp)
    · rw [if_neg ho] at h
      have : String.mk (pySquash (pyValStr v)) = u := by simpa using h
      exact ⟨by rw [← this]; rfl, ho, by simpa using hf⟩

theorem pyCapitalize_ne_nil (w : List Char) (h : w ≠ []) : pyCapitalize w ≠ [] := by
  rcases w with _ | ⟨c, cs⟩
  · exact absurd rfl h
  · simp [pyCapitalize]

theorem pyCapitalize_ws (w : List Char) (h : ∀ c ∈ w, pyIsSpace c = false) :
    ∀ c ∈ pyCapitalize w, pyIsSpace c = false := by
  rcases w with _ | ⟨c, cs⟩
  · intro x hx
    exact absurd hx (by simp [pyCapitalize])
  · intro x hx
    rcases List.mem_cons.mp hx with hx2 | hx2
    · rw [hx2]
      exact pyIsSpace_toUpper c (h c (List.mem_cons_self _ _))
    · rcases List.mem_map.mp hx2 with ⟨y, hy, hye⟩
      rw [← hye]
      exact pyIsSpace_toLower y (h y (List.mem_cons_of_mem _ hy))

theorem titleWord_good (w : List Char) (hne : w ≠ [])
    (hws : ∀ c ∈ w, pyIsSpace c = false) :
    titleWord w ≠ [] ∧ ∀ c ∈ titleWord w, pyIsSpace c = false := by
  unfold titleWord
  by_cases hg : (pyIsUpper w && decide (w.length ≤ 4)) = true
  · rw [if_pos hg]
    exact ⟨hne, hws⟩
  · rw [if_neg hg]
    exact ⟨pyCapitalize_ne_nil w hne, pyCapitalize_ws w hws⟩

theorem pyCapitalize_idem (w : List Char) :
    pyCapitalize (pyCapitalize w) = pyCapitalize w := by
  rcases w with _ | ⟨c, cs⟩
  · rfl
  · show c.toUpper.toUpper :: (cs.map Char.toLower).map Char.toLower =
      c.toUpper :: cs.map Char.toLower
    rw [toUpper_toUpper, List.map_map]
    congr 1
    apply List.map_congr_left
    intro x _
    exact toLower_toLower x

theorem titleWord_idem (w : List Char) : titleWord (titleWord w) = titleWord w := by
  by_cases hg : (pyIsUpper w && decide (w.length ≤ 4)) = true
  · have h1 : titleWord w = w := by
      unfold titleWord
      rw [if_pos hg]
    rw [h1]
    exact h1
  · have h1 : titleWord w = pyCapitalize w := by
      unfold titleWord
      rw [if_neg hg]
    rw [h1]
    by_cases hg2 : (pyIsUpper (pyCapitalize w) && decide ((pyCapitalize w).length ≤ 4)) = true
    · unfold titleWord
      rw [if_pos hg2]
    · unfold titleWord
      rw [if_neg hg2]
      exact pyCapitalize_idem w

/-- `titlecase_job` is idempotent at the normalizer level, except on a
nonempty whitespace-only string (which it maps to `""`, and a second pass
maps to `None`). -/
theorem titlecase_job_idem (v : PyVal) (h : wsOnlyStr v = false) :
    titlecase_job (optToVal (titlecase_job v)) = titlecase_job v := by
  rcases hv : titlecase_job v with _ | t
  · rfl
  · unfold titlecase_job at hv
    by_cases hf : pyFalsy v = true
    · rw [if_pos hf] at hv
      exact absurd hv (by simp)
    · rw [if_neg hf] at hv
      rcases hsq : squash_spaces v with _ | u
      · rw [hsq] at hv
        rcases hval : v with _ | s | q
        · rw [hval] at hf
          exact absurd rfl hf
        · rw [hval] at hf hsq h
          have hs : s ≠ "" := by
            intro he
            apply hf
            simp [pyFalsy, he]
          have hnil : pySquash s.toList = [] := by
            unfold squash_spaces at hsq
            rw [if_neg (by simpa [pyFalsy] using hf)] at hsq
            by_cases ho : pySquash (pyValStr (PyVal.str s)) = []
            · exact ho
            · rw [if_neg ho] at hsq
              exact absurd hsq (by simp)
          have h2 : (if s = "" then false
              else decide (pySquash s.toList = [])) = false := h
          rw [if_neg hs] at h2
          exact absurd hnil (by simpa using h2)
        · rw [hval] at hv
          exact absurd hv (by simp)
      · rw [hsq] at hv
        have hu := squash_spaces_some v u hsq
        have hSq : Sq u.toList := by
          rw [hu.1]
          exact Sq_pySquash (pyValStr v) hu.2.1
        have ht : t = String.mk (List.intercalate [' ']
            ((pyWords u.toList).map titleWord)) := by
          simpa using hv.symm
        have hwords := pyWords_words u.toList
        have hgood2 : ∀ w ∈ (pyWords u.toList).map titleWord,
            w ≠ [] ∧ ∀ c ∈ w, pyIsSpace c = false := by
          intro w hw
          rcases List.mem_map.mp hw with ⟨x, hx, hxe⟩
          rw [← hxe]
          exact titleWord_good x (hwords x hx).1 (hwords x hx).2
        have hpwne : pyWords u.toList ≠ [] := by
          rcases hul : u.toList with _ | ⟨c, cs⟩
          · exact absurd hul hSq.1
          · have hc : pyIsSpace c = false := by
              apply hSq.2.1 c
              rw [hul]
              rfl
            rw [← hul]
            apply pyWords_ne_nil u.toList c _ hc
            rw [hul]
            exact List.mem_cons_self _ _
        rcases hmw : (pyWords u.toList).map titleWord with _ | ⟨w0, ws0⟩
        · exact absurd (List.map_eq_nil_iff.mp hmw) hpwne
        · have htoList : t.toList = List.intercalate [' ']
              ((pyWords u.toList).map titleWord) := by
            rw [ht]
            rfl
          have htlne : t.toList ≠ [] := by
            rw [htoList, hmw]
            exact intercalate_ne_nil w0 ws0
              (hgood2 w0 (by rw [hmw]; exact List.mem_cons_self _ _)).1
          have htne : t ≠ "" := by
            intro he
            apply htlne
            have := congrArg String.toList he
            simpa using this
          show titlecase_job (PyVal.str t) = some t
          unfold titlecase_job
          rw [if_neg (by simpa [pyFalsy] using htne)]
          have hsq3 : pySquash (pyValStr (PyVal.str t)) = t.toList := by
            show pySquash t.toList = t.toList
            rw [htoList]
            unfold pySquash
            rw [pyWords_intercalate _ hgood2]
          have hsqt : squash_spaces (PyVal.str t) = some t := by
            unfold squash_spaces
            rw [if_neg (by simpa [pyFalsy] using htne)]
            rw [hsq3, if_neg htlne]
            rfl
          rw [hsqt]
          show some (String.mk (List.intercalate [' ']
            ((pyWords t.toList).map titleWord))) = some t
          have hptw : pyWords t.toList = (pyWords u.toList).map titleWord := by
            rw [htoList]
            exact pyWords_intercalate _ hgood2
          have hmapmap : ((pyWords u.toList).map titleWord).map titleWord =
              (pyWords u.toList).map titleWord := by
            rw [List.map_map]
            apply List.map_congr_left
            intro x _
            exact titleWord_idem x
          rw [hptw, hmapmap, ← htoList, ht]
          rfl

/-! ## C9: `parse_date` is a fixed point on its own outputs -/

theorem digitChar_not_space (n : Nat) (h : n < 10) : pyIsSpace (digitChar n) = false := by
  interval_cases n
  all_goals decide

theorem pad2_no_ws (n : Nat) : ∀ c ∈ pad2 n, pyIsSpace c = false := by
  intro c hc
  simp only [pad2, List.mem_cons, List.not_mem_nil, or_false] at hc
  rcases hc with h | h
  · rw [h]
    exact digitChar_not_space _ (Nat.mod_lt _ (by omega))
  · rw [h]
    exact digitChar_not_space _ (Nat.mod_lt _ (by omega))

theorem pad4_no_ws (n : Nat) : ∀ c ∈ pad4 n, pyIsSpace c = false := by
  intro c hc
  simp only [pad4, List.mem_cons, List.not_mem_nil, or_false] at hc
  rcases hc with h | h | h | h
  all_goals rw [h]
  all_goals exact digitChar_not_space _ (Nat.mod_lt _ (by omega))

theorem fmtDate_no_ws (y m d : Nat) : ∀ c ∈ fmtDate y m d, pyIsSpace c = false := by
  intro c hc
  unfold fmtDate at hc
  rcases List.mem_append.mp hc with h | h
  · exact pad4_no_ws y c h
  · rcases List.mem_cons.mp h with h2 | h2
    · rw [h2]
      decide
    · rcases List.mem_append.mp h2 with h3 | h3
      · exact pad2_no_ws m c h3
      · rcases List.mem_cons.mp h3 with h4 | h4
        · rw [h4]
          decide
        · exact pad2_no_ws d c h4

/-- Every character `strftime` emits is a digit or a dash. -/
theorem fmtDate_mem (y m d : Nat) (c : Char) (hc : c ∈ fmtDate y m d) :
    c.isDigit = true ∨ c = '-' := by
  unfold fmtDate at hc
  have hp2 := fun k : Nat => (List.all_eq_true.mp (pad2_all_digit k))
  have hp4 := List.all_eq_true.mp (pad4_all_digit y)
  rcases List.mem_append.mp hc with h | h
  · exact Or.inl (hp4 c h)
  · rcases List.mem_cons.mp h with h2 | h2
    · exact Or.inr h2
    · rcases List.mem_append.mp h2 with h3 | h3
      · exact Or.inl (hp2 m c h3)
      · rcases List.mem_cons.mp h3 with h4 | h4
        · exact Or.inr h4
        · exact Or.inl (hp2 d c h4)

theorem slash_not_mem_fmtDate (y m d : Nat) : '/' ∉ fmtDate y m d := by
  intro hc
  rcases fmtDate_mem y m d '/' hc with h | h
  · exact absurd h (by decide)
  · exact absurd h (by decide)

theorem fmtDate_length (y m d : Nat) : (fmtDate y m d).length = 10 := by
  simp [fmtDate, pad4, pad2]

/-- The `%m`/`%d` token never accepts a four-character year field. -/
theorem numToken_pad4 (hi y : Nat) : numToken hi (pad4 y) = Option.none := by
  have hlen : (pad4 y).length = 4 := by simp [pad4]
  unfold numToken
  rw [if_neg]
  intro hcond
  rcases hcond.1 with h | h
  · rw [hlen] at h
    omega
  · rw [hlen] at h
    omega

theorem fmtMDY_slash_fmtDate (yt : List Char → Option Nat) (y m d : Nat) :
    fmtMDY '/' yt (fmtDate y m d) = Option.none := by
  unfold fmtMDY strpSplit3
  rw [splitChar_no_sep '/' _ (slash_not_mem_fmtDate y m d)]

theorem fmtMDY_dash_fmtDate (yt : List Char → Option Nat) (y m d : Nat) :
    fmtMDY '-' yt (fmtDate y m d) = Option.none := by
  have hsplit : splitChar '-' (fmtDate y m d) = [pad4 y, pad2 m, pad2 d] := by
    unfold fmtDate
    rw [splitChar_append_sep '-' _ _ (dash_not_mem_pad4 y),
      splitChar_append_sep '-' _ _ (dash_not_mem_pad2 m),
      splitChar_no_sep '-' _ (dash_not_mem_pad2 d)]
  have hred : fmtMDY '-' yt (fmtDate y m d) =
      match numToken 12 (pad4 y), numToken 31 (pad2 m), yt (pad2 d) with
      | some m2, some d2, some y2 => some (y2, m2, d2)
      | _, _, _ => Option.none := by
    unfold fmtMDY strpSplit3
    rw [hsplit]
  rw [hred, numToken_pad4 12 y]

theorem tryFormats_cons_none (f : List Char → Option (Nat × Nat × Nat))
    (fs : List (List Char → Option (Nat × Nat × Nat))) (cs : List Char)
    (h : f cs = Option.none) : tryFormats (f :: fs) cs = tryFormats fs cs := by
  have hred : tryFormats (f :: fs) cs =
      match f cs with
      | some (y, m, d) =>
        match mkDateStr y m d with
        | some s => some s
        | Option.none => tryFormats fs cs
      | Option.none => tryFormats fs cs := rfl
  rw [hred, h]

theorem tryFormats_cons_some (f : List Char → Option (Nat × Nat × Nat))
    (fs : List (List Char → Option (Nat × Nat × Nat))) (cs : List Char)
    (y m d : Nat) (hf : f cs = some (y, m, d)) (hv : validDate y m d = true) :
    tryFormats (f :: fs) cs = some (String.mk (fmtDate y m d)) := by
  have hmk : mkDateStr y m d = some (String.mk (fmtDate y m d)) := by
    unfold mkDateStr
    rw [if_pos hv]
  have hred : tryFormats (f :: fs) cs =
      match f cs with
      | some (y, m, d) =>
        match mkDateStr y m d with
        | some s => some s
        | Option.none => tryFormats fs cs
      | Option.none => tryFormats fs cs := rfl
  rw [hred, hf]
  show (match mkDateStr y m d with
      | some s => some s
      | Option.none => tryFormats fs cs) = some (String.mk (fmtDate y m d))
  rw [hmk]

/-- Reparsing a canonical date string: the two `%m/%d` layouts ahead of
`%Y-%m-%d` fail (no slash; a four-digit month field), and `%Y-%m-%d`
reproduces the string. -/
theorem parse_date_fmtDate (y m d : Nat) (h : validDate y m d = true) :
    parse_date (PyVal.str (String.mk (fmtDate y m d))) =
      some (String.mk (fmtDate y m d)) := by
  obtain ⟨h1, h2, h3, h4, h5, h6⟩ := (validDate_iff y m d).mp h
  have hlen := fmtDate_length y m d
  have hnil : fmtDate y m d ≠ [] := by
    intro he
    rw [he] at hlen
    simp at hlen
  have hne : String.mk (fmtDate y m d) ≠ "" := by
    intro he
    apply hnil
    have := congrArg String.toList he
    simpa using this
  unfold parse_date
  rw [if_neg (by simpa [pyFalsy] using hne)]
  have hsquash : pySquash (pyValStr (PyVal.str (String.mk (fmtDate y m d)))) =
      fmtDate y m d := by
    show pySquash (fmtDate y m d) = fmtDate y m d
    unfold pySquash
    rw [pyWords_word (fmtDate y m d) hnil (fmtDate_no_ws y m d), intercalate_singleton]
  rw [hsquash]
  rw [if_neg (by
    push_neg
    refine ⟨hnil, ?_⟩
    rw [hlen]
    omega)]
  have htf : tryFormats strpFormats (fmtDate y m d) =
      some (String.mk (fmtDate y m d)) := by
    unfold strpFormats
    rw [tryFormats_cons_none _ _ _ (fmtMDY_slash_fmtDate year4Token y m d),
      tryFormats_cons_none _ _ _ (fmtMDY_dash_fmtDate year4Token y m d)]
    exact tryFormats_cons_some _ _ _ y m d
      (fmtYMD_fmtDate y m d h2 h3 h4 h5 (le_trans h6 (daysInMonth_le y m))) h
  rw [htf]

/-- Every successful `tryFormats` output is a formatted valid date. -/
theorem tryFormats_shape : ∀ (fs : List (List Char → Option (Nat × Nat × Nat)))
    (cs : List Char) (s : String), tryFormats fs cs = some s →
    ∃ y m d, validDate y m d = true ∧ s = String.mk (fmtDate y m d)
  | [], cs, s, h => absurd h (by simp [tryFormats])
  | f :: fs, cs, s, h => by
    have hred : tryFormats (f :: fs) cs =
        match f cs with
        | some (y, m, d) =>
          match mkDateStr y m d with
          | some s => some s
          | Option.none => tryFormats fs cs
        | Option.none => tryFormats fs cs := rfl
    rw [hred] at h
    rcases hf : f cs with _ | ⟨y, m, d⟩
    · rw [hf] at h
      exact tryFormats_shape fs cs s h
    · rw [hf] at h
      have h2 : (match mkDateStr y m d with
          | some s => some s
          | Option.none => tryFormats fs cs) = some s := h
      by_cases hv : validDate y m d = true
      · have hmk : mkDateStr y m d = some (String.mk (fmtDate y m d)) := by
          unfold mkDateStr
          rw [if_pos hv]
        rw [hmk] at h2
        have hst : String.mk (fmtDate y m d) = s := by simpa using h2
        exact ⟨y, m, d, hv, hst.symm⟩
      · have hmk : mkDateStr y m d = Option.none := by
          unfold mkDateStr
          rw [if_neg hv]
        rw [hmk] at h2
        exact tryFormats_shape fs cs s h2

/-- Every successful `parse_date` output is a formatted valid date. -/
theorem parse_date_some (v : PyVal) (s : String) (h : parse_date v = some s) :
    ∃ y m d, validDate y m d = true ∧ s = String.mk (fmtDate y m d) := by
  unfold parse_date at h
  by_cases hf : pyFalsy v = true
  · rw [if_pos hf] at h
    exact absurd h (by simp)
  · rw [if_neg hf] at h
    by_cases hg : pySquash (pyValStr v) = [] ∨ (pySquash (pyValStr v)).length < 6
    · rw [if_pos hg] at h
      exact absurd h (by simp)
    · rw [if_neg hg] at h
      rcases htf : tryFormats strpFormats (pySquash (pyValStr v)) with _ | t
      · rw [htf] at h
        rcases hdc : digitChunks (pySquash (pyValStr v)) with _ | ⟨r0, rest⟩
        · rw [hdc] at h
          exact absurd h (by simp)
        · rcases rest with _ | ⟨r1, rest2⟩
          · rw [hdc] at h
            exact absurd h (by simp)
          · rcases rest2 with _ | ⟨r2, rest3⟩
            · rw [hdc] at h
              exact absurd h (by simp)
            · rw [hdc] at h
              have h2 : mkDateStr (if r2.length = 4 then digitsVal r2
                  else 2000 + digitsVal r2) (digitsVal r0) (digitsVal r1) = some s := h
              unfold mkDateStr at h2
              by_cases hv : validDate (if r2.length = 4 then digitsVal r2
                  else 2000 + digitsVal r2) (digitsVal r0) (digitsVal r1) = true
              · rw [if_pos hv] at h2
                refine ⟨_, _, _, hv, ?_⟩
                simpa using h2.symm
              · rw [if_neg hv] at h2
                exact absurd h2 (by simp)
      · rw [htf] at h
        obtain ⟨y, m, d, hv, he⟩ := tryFormats_shape strpFormats _ t htf
        have hst : t = s := by simpa using h
        exact ⟨y, m, d, hv, by rw [← hst, he]⟩

/-- `parse_date` is idempotent at the normalizer level. -/
theorem parse_date_idem (v : PyVal) :
    parse_date (optToVal (parse_date v)) = parse_date v := by
  rcases hv : parse_date v with _ | t
  · rfl
  · obtain ⟨y, m, d, hval, hs⟩ := parse_date_some v t hv
    rw [hs]
    exact parse_date_fmtDate y m d hval

/-! ## C9: remaining normalizers and the claim -/

theorem to_float_idem (v : PyVal) : to_float (numToVal (to_float v)) = to_float v := by
  rcases hv : to_float v with _ | q
  · rfl
  · rfl

theorem norm_ein_ev_idem (it : FieldValue) :
    norm_ein_ev (norm_ein_ev it) = norm_ein_ev it := by
  rcases hd : einDigits it.value with _ | d
  · have h1 : norm_ein_ev it = ⟨PyVal.none, it.confidence⟩ := by
      unfold norm_ein_ev
      rw [hd]
    rw [h1]
    rfl
  · by_cases hc : d ≠ "" ∧ is_valid_ein (some d) = true
    · have h1 : norm_ein_ev it = ⟨PyVal.str d, it.confidence⟩ := by
        unfold norm_ein_ev
        rw [hd]
        exact if_pos hc
      rw [h1]
      have hdig : d.toList.all Char.isDigit = true := by
        unfold einDigits at hd
        by_cases hf : pyFalsy it.value = true
        · rw [if_pos hf] at hd
          exact absurd hd (by simp)
        · rw [if_neg hf] at hd
          have hh : String.mk (filterDigits (pyValStr it.value)) = d := by simpa using hd
          rw [← hh]
          exact filterDigits_all _
      have hfilter : filterDigits d.toList = d.toList := by
        apply List.filter_eq_self.mpr
        intro c hcc
        exact (List.all_eq_true.mp hdig) c hcc
      have hd2 : einDigits (PyVal.str d) = some d := by
        unfold einDigits
        rw [if_neg (by simpa [pyFalsy] using hc.1)]
        show some (String.mk (filterDigits d.toList)) = some d
        rw [hfilter]
        rfl
      unfold norm_ein_ev
      rw [show ((⟨PyVal.str d, it.confidence⟩ : FieldValue)).value = PyVal.str d from rfl,
        hd2]
      exact if_pos hc
    · have h1 : norm_ein_ev it = ⟨PyVal.none, it.confidence⟩ := by
        unfold norm_ein_ev
        rw [hd]
        exact if_neg hc
      rw [h1]
      rfl

theorem squash_fv_idem (v : PyVal) (conf : Option Rat) :
    (⟨optToVal (squash_spaces (optToVal (squash_spaces v))), conf⟩ : FieldValue) =
      ⟨optToVal (squash_spaces v), conf⟩ := by
  rw [squash_spaces_idem]

theorem parse_fv_idem (v : PyVal) (conf : Option Rat) :
    (⟨optToVal (parse_date (optToVal (parse_date v))), conf⟩ : FieldValue) =
      ⟨optToVal (parse_date v), conf⟩ := by
  rw [parse_date_idem]

theorem title_fv_idem (v : PyVal) (conf : Option Rat) (h : wsOnlyStr v = false) :
    (⟨optToVal (titlecase_job (optToVal (titlecase_job v))), conf⟩ : FieldValue) =
      ⟨optToVal (titlecase_job v), conf⟩ := by
  rw [titlecase_job_idem v h]

theorem money_fv_idem (v : PyVal) (conf : Option Rat) :
    (⟨optToVal (clean_money (optToVal (clean_money v))), conf⟩ : FieldValue) =
      ⟨optToVal (clean_money v), conf⟩ := by
  rw [clean_money_idem]

theorem float_fv_idem (v : PyVal) (conf : Option Rat) :
    (⟨numToVal (to_float (numToVal (to_float v))), conf⟩ : FieldValue) =
      ⟨numToVal (to_float v), conf⟩ := by
  rw [to_float_idem]

/-- **C9** (counterexample): the loss-of-employment-reason normalizer is not
idempotent.  On the raw value `"Reason: Reason: quit"` the first pass strips
one label, producing `"Reason: quit"`; a second pass strips the next label,
producing `"quit"`. -/
theorem c9_lof_reason_counterexample :
    norm_lof_reason_ev (norm_lof_reason_ev ⟨PyVal.str "Reason: Reason: quit", some 80⟩) ≠
      norm_lof_reason_ev ⟨PyVal.str "Reason: Reason: quit", some 80⟩ := by
  decide

/-- **C9** (amended): every per-field normalizer other than
`norm_lof_reason_ev` is idempotent on its own output, provided the raw value
is not a nonempty whitespace-only string (on which the job-title normalizers
map first to `""`, then to null).  Confidence is carried through both
passes unchanged. -/
theorem c9_normalizers_idempotent (it : FieldValue) (h : wsOnlyStr it.value = false) :
    norm_employee_name_ps (norm_employee_name_ps it) = norm_employee_name_ps it ∧
    norm_employer_name_ps (norm_employer_name_ps it) = norm_employer_name_ps it ∧
    norm_employer_address_ps (norm_employer_address_ps it) = norm_employer_address_ps it ∧
    norm_ein_ps (norm_ein_ps it) = norm_ein_ps it ∧
    norm_job_title_ps (norm_job_title_ps it) = norm_job_title_ps it ∧
    norm_pay_date_ps (norm_pay_date_ps it) = norm_pay_date_ps it ∧
    norm_gross_amount_ps (norm_gross_amount_ps it) = norm_gross_amount_ps it ∧
    norm_total_hours_ps (norm_total_hours_ps it) = norm_total_hours_ps it ∧
    norm_period_start_ps (norm_period_start_ps it) = norm_period_start_ps it ∧
    norm_period_end_ps (norm_period_end_ps it) = norm_period_end_ps it ∧
    norm_employee_name_ev (norm_employee_name_ev it) = norm_employee_name_ev it ∧
    norm_employer_name_ev (norm_employer_name_ev it) = norm_employer_name_ev it ∧
    norm_employer_address_ev (norm_employer_address_ev it) = norm_employer_address_ev it ∧
    norm_ein_ev (norm_ein_ev it) = norm_ein_ev it ∧
    norm_hire_date_ev (norm_hire_date_ev it) = norm_hire_date_ev it ∧
    norm_job_title_ev (norm_job_title_ev it) = norm_job_title_ev it ∧
    norm_total_hours_ev (norm_total_hours_ev it) = norm_total_hours_ev it ∧
    norm_lof_date_ev (norm_lof_date_ev it) = norm_lof_date_ev it ∧
    norm_last_paycheck_date_ev (norm_last_paycheck_date_ev it) =
      norm_last_paycheck_date_ev it :=
  ⟨squash_fv_idem it.value it.confidence,
   squash_fv_idem it.value it.confidence,
   squash_fv_idem it.value it.confidence,
   rfl,
   title_fv_idem it.value it.confidence h,
   parse_fv_idem it.value it.confidence,
   money_fv_idem it.value it.confidence,
   float_fv_idem it.value it.confidence,
   parse_fv_idem it.value it.confidence,
   parse_fv_idem it.value it.confidence,
   squash_fv_idem it.value it.confidence,
   squash_fv_idem it.value it.confidence,
   squash_fv_idem it.value it.confidence,
   norm_ein_ev_idem it,
   parse_fv_idem it.value it.confidence,
   title_fv_idem it.value it.confidence h,
   float_fv_idem it.value it.confidence,
   parse_fv_idem it.value it.confidence,
   parse_fv_idem it.value it.confidence⟩

/-- **C9** witness: the amended idempotence applied to a concrete messy
job-title field. -/
theorem c9_normalizers_idempotent_witness :
    wsOnlyStr (PyVal.str "  senior  DEV ii ") = false ∧
      norm_job_title_ps (norm_job_title_ps ⟨PyVal.str "  senior  DEV ii ", some 90⟩) =
        norm_job_title_ps ⟨PyVal.str "  senior  DEV ii ", some 90⟩ :=
  ⟨by decide,
   (c9_normalizers_idempotent ⟨PyVal.str "  senior  DEV ii ", some 90⟩
     (by decide)).2.2.2.2.1⟩

end EmploymentVerification
